import Mathlib

set_option maxRecDepth 10000

/-
Verification of the polynomial-arithmetic core of the mdpc-gf4 repository:
a shallow embedding of the GaloisField trait, the GF4 reference field, the
Polynomial type with its ring operations and Euclidean division, and the
extended Euclidean algorithm (xgcd) used for modular inversion.

Machine integers do not occur in the embedded core (all indices are usize
values that provably stay in bounds), so lists over the coefficient type
with Nat indices model the Rust vectors directly.  The div_mod while loop
and the xgcd loop are embedded with an explicit fuel parameter; running out
of fuel is a distinguished outcome (outOfFuel) that is never identified
with any value the Rust code returns, and non-termination of the Rust loop
is expressed as the loop returning outOfFuel for every fuel.
-/

namespace Mdpc

/-- Capability record mirroring the GaloisField trait in
src/galois_fields/mod.rs.  The generate_random method is omitted: it only
feeds the out-of-core random sampling collaborator and no embedded
operation uses it. -/
structure GaloisField (F : Type) where
  generate_zero : F
  is_zero : F → Bool
  generate_one : F
  is_one : F → Bool
  add : F → F → F
  sub : F → F → F
  mul : F → F → F
  div : F → F → Option F

/-- The four-element reference field, src/galois_fields/gf4_number.rs. -/
inductive GF4 : Type where
  | Zero : GF4
  | One : GF4
  | Alpha : GF4
  | AlphaPlusOne : GF4
deriving DecidableEq, Fintype

/-- GF4::to_number. -/
def GF4.to_number : GF4 → Nat
  | .Zero => 0
  | .One => 1
  | .Alpha => 2
  | .AlphaPlusOne => 3

/-- The static ADDITION table. -/
def ADDITION : List (List GF4) :=
  [[.Zero, .One, .Alpha, .AlphaPlusOne],
   [.One, .Zero, .AlphaPlusOne, .Alpha],
   [.Alpha, .AlphaPlusOne, .Zero, .One],
   [.AlphaPlusOne, .Alpha, .One, .Zero]]

/-- The static MULTIPLICATION table. -/
def MULTIPLICATION : List (List GF4) :=
  [[.Zero, .Zero, .Zero, .Zero],
   [.Zero, .One, .Alpha, .AlphaPlusOne],
   [.Zero, .Alpha, .AlphaPlusOne, .One],
   [.Zero, .AlphaPlusOne, .One, .Alpha]]

/-- The static DIVISION table (columns indexed by divisor number minus 1). -/
def DIVISION : List (List GF4) :=
  [[.Zero, .Zero, .Zero],
   [.One, .AlphaPlusOne, .Alpha],
   [.Alpha, .One, .AlphaPlusOne],
   [.AlphaPlusOne, .Alpha, .One]]

/-- GF4 is_zero: comparison with the Zero variant. -/
def GF4.is_zero (a : GF4) : Bool := a == GF4.Zero

/-- GF4 is_one: comparison with the One variant. -/
def GF4.is_one (a : GF4) : Bool := a == GF4.One

/-- GF4 add: table lookup ADDITION[a][b].  The Rust indices are provably in
bounds; getD with an arbitrary default models the in-bounds lookup. -/
def GF4.add (a b : GF4) : GF4 :=
  (ADDITION.getD a.to_number []).getD b.to_number GF4.Zero

/-- GF4 sub: defined in the source as self.add(other). -/
def GF4.sub (a b : GF4) : GF4 := a.add b

/-- GF4 mul: table lookup MULTIPLICATION[a][b]. -/
def GF4.mul (a b : GF4) : GF4 :=
  (MULTIPLICATION.getD a.to_number []).getD b.to_number GF4.Zero

/-- GF4 div: None on a zero divisor, otherwise DIVISION[a][b - 1]. -/
def GF4.div (a b : GF4) : Option GF4 :=
  if b.is_zero then none
  else some ((DIVISION.getD a.to_number []).getD (b.to_number - 1) GF4.Zero)

/-- The GaloisField capability record for GF4. -/
def gf4Ops : GaloisField GF4 :=
  { generate_zero := GF4.Zero
    is_zero := GF4.is_zero
    generate_one := GF4.One
    is_one := GF4.is_one
    add := GF4.add
    sub := GF4.sub
    mul := GF4.mul
    div := GF4.div }

/-- The Polynomial struct of src/polynomials/polynomial.rs: a plain wrapper
around the coefficient vector.  The derived structural equality is exactly
the derived PartialEq of the Rust struct (coefficient-list equality). -/
structure Polynomial (F : Type) where
  coefficients : List F
deriving DecidableEq

/-- remove_trailing_zeros: count the trailing coefficients that are zero
(scanning from the back, stopping at the first non-zero), truncate them
away, and push a single zero if the vector became empty. -/
def remove_trailing_zeros {F : Type} (Phi : GaloisField F) (v : List F) : List F :=
  let count := (v.reverse.takeWhile (fun item => Phi.is_zero item)).length
  let trimmed := v.take (v.length - count)
  if trimmed.isEmpty then [Phi.generate_zero] else trimmed

namespace Polynomial

/-- Polynomial::new: the canonical zero polynomial. -/
def new {F : Type} (Phi : GaloisField F) : Polynomial F :=
  ⟨[Phi.generate_zero]⟩

/-- Polynomial::new_from_coefficients. -/
def new_from_coefficients {F : Type} (Phi : GaloisField F) (coefficients : List F) :
    Polynomial F :=
  if coefficients.isEmpty then new Phi
  else ⟨remove_trailing_zeros Phi coefficients⟩

/-- Polynomial::degree: length minus one (usize arithmetic; the struct
invariant keeps the vector non-empty, and Nat subtraction agrees with the
Rust value on non-empty vectors). -/
def degree {F : Type} (p : Polynomial F) : Nat :=
  p.coefficients.length - 1

/-- Polynomial::is_zero.  The Rust code indexes coefficients[0], which is in
bounds by the struct invariant; getD with the zero default models it. -/
def is_zero {F : Type} (Phi : GaloisField F) (p : Polynomial F) : Bool :=
  p.degree == 0 && Phi.is_zero (p.coefficients.getD 0 Phi.generate_zero)

/-- Polynomial::is_one. -/
def is_one {F : Type} (Phi : GaloisField F) (p : Polynomial F) : Bool :=
  p.degree == 0 && Phi.is_one (p.coefficients.getD 0 Phi.generate_zero)

/-- Polynomial::get_coefficient. -/
def get_coefficient {F : Type} (p : Polynomial F) (i : Nat) : Option F :=
  p.coefficients.get? i

end Polynomial

/-- The shared loop body of add and sub: start from the coefficients of the
longer operand and combine every index of the shorter operand into it with
the field operation f, longer-side coefficient first. -/
def combine {F : Type} (f : F → F → F) : List F → List F → List F
  | longer, [] => longer
  | [], _ => []
  | c :: cs, s :: ss => f c s :: combine f cs ss

namespace Polynomial

/-- Polynomial::add. -/
def add {F : Type} (Phi : GaloisField F) (self other : Polynomial F) : Polynomial F :=
  let pair := if self.degree ≥ other.degree then (self, other) else (other, self)
  new_from_coefficients Phi
    (combine Phi.add pair.1.coefficients pair.2.coefficients)

/-- Polynomial::sub: identical loop with the field sub, applied as
longer-side coefficient minus shorter-side coefficient. -/
def sub {F : Type} (Phi : GaloisField F) (self other : Polynomial F) : Polynomial F :=
  let pair := if self.degree ≥ other.degree then (self, other) else (other, self)
  new_from_coefficients Phi
    (combine Phi.sub pair.1.coefficients pair.2.coefficients)

end Polynomial

/-- In-place accumulation acc[offset + j] = acc[offset + j].add(xs[j]) for
every j below the length of xs: the inner loop of Polynomial::mul. -/
def addInto {F : Type} (Phi : GaloisField F) : List F → Nat → List F → List F
  | acc, _, [] => acc
  | [], _, _ => []
  | a :: acc, 0, x :: xs => Phi.add a x :: addInto Phi acc 0 xs
  | a :: acc, n + 1, xs => a :: addInto Phi acc n xs

/-- The outer loop of Polynomial::mul: for the i-th coefficient a of self,
accumulate a.mul(b[j]) into slot i + j for every j. -/
def mulLoop {F : Type} (Phi : GaloisField F) (b : List F) :
    List F → Nat → List F → List F
  | [], _, acc => acc
  | a :: as_, i, acc =>
      mulLoop Phi b as_ (i + 1) (addInto Phi acc i (b.map (fun jtem => Phi.mul a jtem)))

/-- The full coefficient convolution of Polynomial::mul, starting from a
zero-filled accumulator of length deg(self) + deg(other) + 1. -/
def mulCoeffs {F : Type} (Phi : GaloisField F) (a b : List F) : List F :=
  mulLoop Phi b a 0
    (List.replicate ((a.length - 1) + (b.length - 1) + 1) Phi.generate_zero)

/-- Polynomial::mul. -/
def Polynomial.mul {F : Type} (Phi : GaloisField F) (self other : Polynomial F) :
    Polynomial F :=
  Polynomial.new_from_coefficients Phi (mulCoeffs Phi self.coefficients other.coefficients)

/-- Outcome of the div_mod elimination loop: a normal exit carrying the
quotient slots and the remaining coefficients, the panic of the unwrap on
the field division, or fuel exhaustion (the Rust loop still running). -/
inductive LoopResult (F : Type) where
  | ok : List F → List F → LoopResult F
  | panicked : LoopResult F
  | outOfFuel : LoopResult F
deriving DecidableEq

/-- One elimination pass of div_mod: current[i + offset] =
current[i + offset].sub(other[i].mul(d)) for every i below the length of
other (the Rust code reads d back from result[offset], which was just set
to d). -/
def elimInto {F : Type} (Phi : GaloisField F) : List F → Nat → List F → F → List F
  | cur, _, [], _ => cur
  | [], _, _, _ => []
  | c :: cur, 0, o :: os, d => Phi.sub c (Phi.mul o d) :: elimInto Phi cur 0 os d
  | c :: cur, n + 1, os, d => c :: elimInto Phi cur n os d

/-- The while loop of Polynomial::div_mod, with explicit fuel.  The loop
repeats while current.len() - 1 >= other.degree(); each pass divides the
leading coefficients, records the quotient slot at offset
current.len() - other.len(), eliminates, and strips trailing zeros. -/
def divModLoop {F : Type} (Phi : GaloisField F) (other : List F) :
    Nat → List F → List F → LoopResult F
  | 0, _, _ => .outOfFuel
  | fuel + 1, cur, res =>
      if cur.length - 1 ≥ other.length - 1 then
        match Phi.div (cur.getD (cur.length - 1) Phi.generate_zero)
            (other.getD (other.length - 1) Phi.generate_zero) with
        | none => .panicked
        | some d =>
            let offset := cur.length - other.length
            divModLoop Phi other fuel
              (remove_trailing_zeros Phi (elimInto Phi cur offset other d))
              (res.set offset d)
      else .ok res cur

/-- Outcome of Polynomial::div_mod.  The ok constructor carries the value
the Rust function returns (an Option of the quotient and remainder pair);
panicked and outOfFuel are the two abnormal outcomes of the loop. -/
inductive DivModResult (F : Type) where
  | ok : Option (Polynomial F × Polynomial F) → DivModResult F
  | panicked : DivModResult F
  | outOfFuel : DivModResult F
deriving DecidableEq

/-- Polynomial::div_mod.  The loop is given fuel equal to the length of the
dividend coefficient vector, which is proved sufficient whenever the
divisor has degree at least one; for a non-zero divisor of degree zero the
loop returns outOfFuel for every fuel (it never terminates in Rust). -/
def Polynomial.div_mod {F : Type} (Phi : GaloisField F) (self other : Polynomial F) :
    DivModResult F :=
  if self.degree < other.degree then
    .ok (some (Polynomial.new Phi, self))
  else if Polynomial.is_zero Phi other then
    .ok none
  else
    match divModLoop Phi other.coefficients self.coefficients.length
        self.coefficients
        (List.replicate self.coefficients.length Phi.generate_zero) with
    | .ok res cur =>
        .ok (some (Polynomial.new_from_coefficients Phi res,
                   Polynomial.new_from_coefficients Phi cur))
    | .panicked => .panicked
    | .outOfFuel => .outOfFuel

/-- The loop of xgcd in src/polynomials/polynomial_operations.rs, with
explicit fuel.  The outer none means the computation did not finish (outer
fuel ran out, or the inner div_mod panicked or diverged); some carries the
pair of Options the Rust function returns. -/
def xgcdLoop {F : Type} (Phi : GaloisField F) :
    Nat → Polynomial F → Polynomial F → Polynomial F → Polynomial F →
    Option (Option (Polynomial F) × Option (Polynomial F))
  | 0, _, _, _, _ => none
  | fuel + 1, r_last, r_current, t_last, t_current =>
      match Polynomial.div_mod Phi r_last r_current with
      | .ok (some (q_current, mod_current)) =>
          let t := Polynomial.sub Phi t_last (Polynomial.mul Phi q_current t_current)
          if Polynomial.is_one Phi mod_current then
            some (some mod_current, some t)
          else if Polynomial.is_zero Phi mod_current then
            some (some r_current, none)
          else
            xgcdLoop Phi fuel r_current mod_current t_current t
      | .ok none => some (none, none)
      | .panicked => none
      | .outOfFuel => none

/-- xgcd.  Note the initial Bezout pair of the source: t_last is the zero
polynomial (Polynomial::new) and t_current is
new_from_coefficients(vec![T::generate_zero()]), which is again the zero
polynomial. -/
def xgcd {F : Type} (Phi : GaloisField F) (poly modulus : Polynomial F) :
    Option (Option (Polynomial F) × Option (Polynomial F)) :=
  if modulus.degree ≤ poly.degree ∨ Polynomial.is_zero Phi poly = true then
    some (none, none)
  else
    xgcdLoop Phi (poly.coefficients.length + 1) modulus poly
      (Polynomial.new Phi)
      (Polynomial.new_from_coefficients Phi [Phi.generate_zero])

/-- Modelled from the spec, for comparison with xgcd: the same iteration
with the Bezout pair initialized to (zero_polynomial, one_polynomial) as
section 4.3 of the specification states. -/
def xgcdSpecInit {F : Type} (Phi : GaloisField F) (poly modulus : Polynomial F) :
    Option (Option (Polynomial F) × Option (Polynomial F)) :=
  if modulus.degree ≤ poly.degree ∨ Polynomial.is_zero Phi poly = true then
    some (none, none)
  else
    xgcdLoop Phi (poly.coefficients.length + 1) modulus poly
      (Polynomial.new Phi)
      (Polynomial.new_from_coefficients Phi [Phi.generate_one])

/-- Polynomial::invert: the second component of xgcd. -/
def Polynomial.invert {F : Type} (Phi : GaloisField F) (self modulus : Polynomial F) :
    Option (Option (Polynomial F)) :=
  (xgcd Phi self modulus).map (fun r => r.2)

/-- The last coefficient exists and is non-zero. -/
def lastNonzero {F : Type} (Phi : GaloisField F) (l : List F) : Bool :=
  match l.getLast? with
  | some x => !(Phi.is_zero x)
  | none => false

/-- Canonical form of a coefficient vector: non-empty, and either the
single-zero form or a non-zero highest coefficient. -/
def Canonical {F : Type} (Phi : GaloisField F) (l : List F) : Prop :=
  l ≠ [] ∧ (l = [Phi.generate_zero] ∨ lastNonzero Phi l = true)

instance {F : Type} [DecidableEq F] (Phi : GaloisField F) (l : List F) :
    Decidable (Canonical Phi l) := by
  unfold Canonical
  infer_instance

/-- The division loop never exits for these arguments, whatever the fuel:
the shallow rendering of non-termination of the Rust while loop started on
the coefficients of p with divisor q. -/
def div_mod_diverges (p other : Polynomial GF4) : Prop :=
  ∀ fuel : Nat,
    divModLoop gf4Ops other.coefficients fuel p.coefficients
      (List.replicate p.coefficients.length GF4.Zero) = .outOfFuel

/-- A three-element field used to witness that the polynomial sub loop is
sensitive to operand order over fields whose subtraction is not
commutative (the reference field GF4 has characteristic 2, hiding the
order). -/
abbrev GF3 := Fin 3

/-- A GaloisField record for GF3: modular arithmetic, with division as
multiplication by the inverse (every non-zero element of GF3 is its own
multiplicative inverse). -/
def gf3Ops : GaloisField GF3 :=
  { generate_zero := 0
    is_zero := fun a => a == 0
    generate_one := 1
    is_one := fun a => a == 1
    add := fun a b => a + b
    sub := fun a b => a - b
    mul := fun a b => a * b
    div := fun a b => if b == 0 then none else some (a * b) }

/-- The field-element contract of section 4.1 of the specification, as far
as it constrains the operations: identities, commutativity and
associativity, sub as addition of the additive inverse, distributivity,
annihilation by zero, agreement of the recognizers with the identities,
and division as multiplication by a multiplicative inverse with an absent
result exactly on zero divisors. -/
def Lawful {F : Type} (Phi : GaloisField F) : Prop :=
  (∀ a, Phi.add a Phi.generate_zero = a) ∧
  (∀ a b, Phi.add a b = Phi.add b a) ∧
  (∀ a b c, Phi.add (Phi.add a b) c = Phi.add a (Phi.add b c)) ∧
  (∀ a b, Phi.add (Phi.sub a b) b = a) ∧
  (∀ a, Phi.mul a Phi.generate_one = a) ∧
  (∀ a b, Phi.mul a b = Phi.mul b a) ∧
  (∀ a b c, Phi.mul (Phi.mul a b) c = Phi.mul a (Phi.mul b c)) ∧
  (∀ a b c, Phi.mul a (Phi.add b c) = Phi.add (Phi.mul a b) (Phi.mul a c)) ∧
  (∀ a, Phi.mul a Phi.generate_zero = Phi.generate_zero) ∧
  (∀ a, Phi.is_zero a = true ↔ a = Phi.generate_zero) ∧
  (∀ a, Phi.is_one a = true ↔ a = Phi.generate_one) ∧
  (∀ a b, Phi.is_zero b = true → Phi.div a b = none) ∧
  (∀ a b, Phi.is_zero b = false → ∃ c, Phi.div a b = some c ∧ Phi.mul c b = a)

end Mdpc

/-
Bridge to Mathlib: GF4 as a Field instance and an interpretation of
coefficient lists as Mathlib polynomials, used to state and prove the
algebraic properties of the embedded operations.  From here on, the
unqualified name Polynomial refers to the Mathlib polynomial type; the
embedded struct is Mdpc.Polynomial.
-/

/-- The multiplicative inverse on GF4, read off the DIVISION table
(verification infrastructure for the Field instance, not part of the
embedding). -/
def gf4Inv : Mdpc.GF4 → Mdpc.GF4
  | .Zero => .Zero
  | .One => .One
  | .Alpha => .AlphaPlusOne
  | .AlphaPlusOne => .Alpha

instance : Zero Mdpc.GF4 := ⟨Mdpc.GF4.Zero⟩

instance : One Mdpc.GF4 := ⟨Mdpc.GF4.One⟩

instance : Add Mdpc.GF4 := ⟨Mdpc.GF4.add⟩

instance : Mul Mdpc.GF4 := ⟨Mdpc.GF4.mul⟩

instance : Neg Mdpc.GF4 := ⟨fun a => a⟩

instance : Inv Mdpc.GF4 := ⟨gf4Inv⟩

instance : CommRing Mdpc.GF4 where
  add_assoc := by decide
  zero_add := by decide
  add_zero := by decide
  add_comm := by decide
  mul_assoc := by decide
  one_mul := by decide
  mul_one := by decide
  left_distrib := by decide
  right_distrib := by decide
  zero_mul := by decide
  mul_zero := by decide
  neg_add_cancel := by decide
  mul_comm := by decide
  nsmul := nsmulRec
  zsmul := zsmulRec

instance : Field Mdpc.GF4 where
  exists_pair_ne := ⟨Mdpc.GF4.Zero, Mdpc.GF4.One, by decide⟩
  mul_inv_cancel := by decide
  inv_zero := rfl
  nnqsmul := _
  qsmul := _

/-- Interpretation of a coefficient list (constant term first) as a
Mathlib polynomial over GF4. -/
noncomputable def toPoly : List Mdpc.GF4 → Polynomial Mdpc.GF4
  | [] => 0
  | c :: rest => Polynomial.C c + Polynomial.X * toPoly rest

/-
Theorems.  First the basic facts about GF4 and about canonicalization,
then the claim theorems in order of the machinery they need.
-/

theorem gf4_zero_def : (0 : Mdpc.GF4) = Mdpc.GF4.Zero := rfl

theorem gf4_one_def : (1 : Mdpc.GF4) = Mdpc.GF4.One := rfl

theorem gf4_add_def (a b : Mdpc.GF4) : a + b = Mdpc.GF4.add a b := rfl

theorem gf4_mul_def (a b : Mdpc.GF4) : a * b = Mdpc.GF4.mul a b := rfl

theorem gf4_sub_eq_add : Mdpc.GF4.sub = Mdpc.GF4.add := rfl

theorem gf4_add_self : ∀ a : Mdpc.GF4, a + a = 0 := by decide

theorem gf4_is_zero_iff : ∀ a : Mdpc.GF4,
    Mdpc.GF4.is_zero a = true ↔ a = Mdpc.GF4.Zero := by decide

theorem gf4_div_cancel : ∀ a b d : Mdpc.GF4, Mdpc.GF4.div a b = some d →
    Mdpc.GF4.sub a (Mdpc.GF4.mul b d) = Mdpc.GF4.Zero := by decide

theorem gf4_div_isSome : ∀ a b : Mdpc.GF4, b ≠ Mdpc.GF4.Zero →
    (Mdpc.GF4.div a b).isSome = true := by decide

/- Canonicalization: remove_trailing_zeros takes the longest prefix whose
reversal drops the leading run of zeros. -/

theorem dropWhile_eq_nil_or_head_false {F : Type} (p : F → Bool) (l : List F) :
    l.dropWhile p = [] ∨ ∃ y ys, l.dropWhile p = y :: ys ∧ p y = false := by
  induction l with
  | nil => exact Or.inl rfl
  | cons a l ih =>
    rw [List.dropWhile_cons]
    split
    · exact ih
    · next h => exact Or.inr ⟨a, l, rfl, by simpa using h⟩

theorem take_append_length {F : Type} (A B : List F) :
    (A ++ B).take ((A ++ B).length - B.length) = A := by
  simp [List.length_append, List.take_left]

theorem trim_take_eq {F : Type} (p : F → Bool) (v : List F) :
    v.take (v.length - (v.reverse.takeWhile p).length)
      = (v.reverse.dropWhile p).reverse := by
  have hsplit := List.takeWhile_append_dropWhile (p := p) (l := v.reverse)
  have hv : (v.reverse.dropWhile p).reverse ++ (v.reverse.takeWhile p).reverse = v := by
    rw [← List.reverse_append, hsplit, List.reverse_reverse]
  have hlen : (v.reverse.takeWhile p).length = (v.reverse.takeWhile p).reverse.length :=
    (List.length_reverse _).symm
  calc v.take (v.length - (v.reverse.takeWhile p).length)
      = ((v.reverse.dropWhile p).reverse ++ (v.reverse.takeWhile p).reverse).take
          (((v.reverse.dropWhile p).reverse ++ (v.reverse.takeWhile p).reverse).length
            - (v.reverse.takeWhile p).reverse.length) := by rw [hv, ← hlen]
    _ = (v.reverse.dropWhile p).reverse := take_append_length _ _

theorem remove_trailing_zeros_eq_trim {F : Type} (Phi : Mdpc.GaloisField F) (v : List F) :
    Mdpc.remove_trailing_zeros Phi v =
      if ((v.reverse.dropWhile (fun x => Phi.is_zero x)).reverse).isEmpty
      then [Phi.generate_zero]
      else (v.reverse.dropWhile (fun x => Phi.is_zero x)).reverse := by
  show (if (v.take (v.length - (v.reverse.takeWhile (fun item => Phi.is_zero item)).length)).isEmpty = true
        then [Phi.generate_zero]
        else v.take (v.length - (v.reverse.takeWhile (fun item => Phi.is_zero item)).length)) = _
  rw [trim_take_eq]

theorem strip_decomposition {F : Type} (Phi : Mdpc.GaloisField F) (v : List F) :
    ∃ zs : List F,
      v = (v.reverse.dropWhile (fun x => Phi.is_zero x)).reverse ++ zs ∧
      ∀ x ∈ zs, Phi.is_zero x = true := by
  refine ⟨(v.reverse.takeWhile (fun x => Phi.is_zero x)).reverse, ?_, ?_⟩
  · conv_lhs => rw [← v.reverse_reverse,
      ← List.takeWhile_append_dropWhile (p := fun x => Phi.is_zero x) (l := v.reverse)]
    rw [List.reverse_append]
  · intro x hx
    rw [List.mem_reverse] at hx
    exact List.mem_takeWhile_imp hx

theorem strip_ne_nil {F : Type} (Phi : Mdpc.GaloisField F) (v : List F) :
    Mdpc.remove_trailing_zeros Phi v ≠ [] := by
  rw [remove_trailing_zeros_eq_trim]
  split
  · simp
  · next h => simpa [List.isEmpty_iff] using h

theorem strip_canonical {F : Type} (Phi : Mdpc.GaloisField F) (v : List F) :
    Mdpc.Canonical Phi (Mdpc.remove_trailing_zeros Phi v) := by
  refine ⟨strip_ne_nil Phi v, ?_⟩
  rw [remove_trailing_zeros_eq_trim]
  split
  · left; rfl
  · next h =>
    right
    rcases dropWhile_eq_nil_or_head_false (fun x => Phi.is_zero x) v.reverse with h0 | ⟨y, ys, hy, hpy⟩
    · exact absurd (by rw [h0]; rfl) h
    · unfold Mdpc.lastNonzero
      rw [List.getLast?_reverse, hy]
      simp [hpy]

theorem new_from_coefficients_canonical {F : Type} (Phi : Mdpc.GaloisField F) (v : List F) :
    Mdpc.Canonical Phi (Mdpc.Polynomial.new_from_coefficients Phi v).coefficients := by
  unfold Mdpc.Polynomial.new_from_coefficients
  split
  · exact ⟨by simp [Mdpc.Polynomial.new], Or.inl rfl⟩
  · exact strip_canonical Phi v

theorem canonical_nonempty {F : Type} (Phi : Mdpc.GaloisField F) (l : List F)
    (h : Mdpc.Canonical Phi l) : l ≠ [] := h.1

/- Construction is insensitive to trailing zeros (claim C10). -/

theorem dropWhile_replicate_append {F : Type} (p : F → Bool) (z : F) (hz : p z = true)
    (k : Nat) (w : List F) :
    (List.replicate k z ++ w).dropWhile p = w.dropWhile p := by
  induction k with
  | zero => rfl
  | succ n ih => simp [List.replicate_succ, List.dropWhile_cons, hz, ih]

theorem strip_append_replicate_zero (v : List Mdpc.GF4) (k : Nat) :
    Mdpc.remove_trailing_zeros Mdpc.gf4Ops (v ++ List.replicate k Mdpc.GF4.Zero)
      = Mdpc.remove_trailing_zeros Mdpc.gf4Ops v := by
  rw [remove_trailing_zeros_eq_trim, remove_trailing_zeros_eq_trim,
    List.reverse_append, List.reverse_replicate,
    dropWhile_replicate_append _ _ (by rfl)]

/-- C10.  Implicit claim: appending any number of field-zero coefficients
to a coefficient sequence does not change the constructed Polynomial, so
the derived structural equality coincides with mathematical equality of
the represented polynomials. -/
theorem c10_trailing_zeros_insensitive : ∀ (v : List Mdpc.GF4) (k : Nat),
    Mdpc.Polynomial.new_from_coefficients Mdpc.gf4Ops (v ++ List.replicate k Mdpc.GF4.Zero)
      = Mdpc.Polynomial.new_from_coefficients Mdpc.gf4Ops v := by
  intro v k
  unfold Mdpc.Polynomial.new_from_coefficients
  cases v with
  | nil =>
    cases k with
    | zero => rfl
    | succ n =>
      rw [if_neg (by simp), if_pos (by simp)]
      rw [strip_append_replicate_zero [] (n + 1)]
      rfl
  | cons a v =>
    rw [if_neg (by simp), if_neg (by simp)]
    rw [strip_append_replicate_zero (a :: v) k]

/- Claims C1, C3, C4: concrete behavior of xgcd and invert over GF4.
The source initializes the Bezout value t_current to the zero polynomial,
so the inverse the code returns is always the zero polynomial. -/

/-- C1.  Evaluating the code at the failing input of the round-trip claim:
invert([1,0,1], mod [0,1,0,a]) returns the zero polynomial, the product
poly.mul(inv) is the zero polynomial, its division by the modulus yields
remainder zero, and that remainder is not the one polynomial. -/
theorem c1_roundtrip_fails :
    Mdpc.Polynomial.invert Mdpc.gf4Ops ⟨[.One, .Zero, .One]⟩ ⟨[.Zero, .One, .Zero, .Alpha]⟩
      = some (some ⟨[Mdpc.GF4.Zero]⟩) ∧
    Mdpc.Polynomial.mul Mdpc.gf4Ops ⟨[.One, .Zero, .One]⟩ ⟨[Mdpc.GF4.Zero]⟩
      = ⟨[Mdpc.GF4.Zero]⟩ ∧
    Mdpc.Polynomial.div_mod Mdpc.gf4Ops ⟨[Mdpc.GF4.Zero]⟩ ⟨[.Zero, .One, .Zero, .Alpha]⟩
      = .ok (some (⟨[Mdpc.GF4.Zero]⟩, ⟨[Mdpc.GF4.Zero]⟩)) ∧
    Mdpc.Polynomial.is_one Mdpc.gf4Ops ⟨[Mdpc.GF4.Zero]⟩ = false := by
  refine ⟨by decide, by decide, by decide, by decide⟩

/-- C3.  The code initializes the Bezout pair to (zero, zero) rather than
(zero, one): on the concrete coprime pair of the repository test suite the
code returns the zero polynomial as the inverse, while the same loop with
the Bezout pair initialized as the specification states (zero, one)
returns [1, 0, a+1], the value the test suite expects. -/
theorem c3_bezout_init :
    Mdpc.xgcd Mdpc.gf4Ops ⟨[.One, .Zero, .One]⟩ ⟨[.Zero, .One, .Zero, .Alpha]⟩
      = some (some ⟨[Mdpc.GF4.One]⟩, some ⟨[Mdpc.GF4.Zero]⟩) ∧
    Mdpc.xgcdSpecInit Mdpc.gf4Ops ⟨[.One, .Zero, .One]⟩ ⟨[.Zero, .One, .Zero, .Alpha]⟩
      = some (some ⟨[Mdpc.GF4.One]⟩,
              some ⟨[Mdpc.GF4.One, Mdpc.GF4.Zero, Mdpc.GF4.AlphaPlusOne]⟩) := by
  refine ⟨by decide, by decide⟩

/-- C4.  Concrete scenario 3: the code inverts [1,0,1] modulo [0,1,0,a] to
the zero polynomial, not to [1,0,a+1] as the claim (and the repository
test suite) states; the non-coprime half of the scenario does hold, the
inverse of [1,a] modulo [0,1,1,1] is absent. -/
theorem c4_concrete_scenario :
    Mdpc.Polynomial.invert Mdpc.gf4Ops ⟨[.One, .Zero, .One]⟩ ⟨[.Zero, .One, .Zero, .Alpha]⟩
      = some (some ⟨[Mdpc.GF4.Zero]⟩) ∧
    (⟨[Mdpc.GF4.Zero]⟩ : Mdpc.Polynomial Mdpc.GF4)
      ≠ ⟨[Mdpc.GF4.One, Mdpc.GF4.Zero, Mdpc.GF4.AlphaPlusOne]⟩ ∧
    Mdpc.Polynomial.invert Mdpc.gf4Ops ⟨[.One, .Alpha]⟩ ⟨[.Zero, .One, .One, .One]⟩
      = some none := by
  refine ⟨by decide, by decide, by decide⟩

/- The toPoly interpretation: coefficients, appends, canonicalization,
and injectivity on canonical coefficient lists. -/

theorem gf4Ops_generate_zero : Mdpc.gf4Ops.generate_zero = Mdpc.GF4.Zero := rfl

theorem gf4Ops_generate_one : Mdpc.gf4Ops.generate_one = Mdpc.GF4.One := rfl

theorem gf4Ops_is_zero : Mdpc.gf4Ops.is_zero = Mdpc.GF4.is_zero := rfl

theorem gf4Ops_is_one : Mdpc.gf4Ops.is_one = Mdpc.GF4.is_one := rfl

theorem gf4Ops_add : Mdpc.gf4Ops.add = Mdpc.GF4.add := rfl

theorem gf4Ops_sub : Mdpc.gf4Ops.sub = Mdpc.GF4.sub := rfl

theorem gf4Ops_mul : Mdpc.gf4Ops.mul = Mdpc.GF4.mul := rfl

theorem gf4Ops_div : Mdpc.gf4Ops.div = Mdpc.GF4.div := rfl

theorem C_gf4_zero : Polynomial.C Mdpc.GF4.Zero = 0 := by
  rw [← gf4_zero_def, map_zero]

theorem C_gf4_one : Polynomial.C Mdpc.GF4.One = 1 := by
  rw [← gf4_one_def, map_one]

theorem toPoly_nil : toPoly [] = 0 := rfl

theorem toPoly_cons (c : Mdpc.GF4) (l : List Mdpc.GF4) :
    toPoly (c :: l) = Polynomial.C c + Polynomial.X * toPoly l := rfl

theorem toPoly_zero_singleton : toPoly [Mdpc.GF4.Zero] = 0 := by
  rw [toPoly_cons, toPoly_nil, C_gf4_zero, mul_zero, add_zero]

theorem toPoly_one_singleton : toPoly [Mdpc.GF4.One] = 1 := by
  rw [toPoly_cons, toPoly_nil, C_gf4_one, mul_zero, add_zero]

theorem coeff_toPoly : ∀ (l : List Mdpc.GF4) (n : Nat),
    (toPoly l).coeff n = l.getD n Mdpc.GF4.Zero
  | [], n => by simp [toPoly, gf4_zero_def]
  | c :: rest, 0 => by
      simp [toPoly_cons, Polynomial.coeff_add, Polynomial.mul_coeff_zero,
        Polynomial.coeff_X_zero, Polynomial.coeff_C]
  | c :: rest, n + 1 => by
      simp [toPoly_cons, Polynomial.coeff_add, Polynomial.coeff_X_mul,
        Polynomial.coeff_C, coeff_toPoly rest n]

theorem toPoly_append : ∀ (xs ys : List Mdpc.GF4),
    toPoly (xs ++ ys) = toPoly xs + Polynomial.X ^ xs.length * toPoly ys
  | [], ys => by simp [toPoly]
  | x :: xs, ys => by
      rw [List.cons_append, toPoly_cons, toPoly_cons, toPoly_append xs ys,
        List.length_cons]
      ring

theorem toPoly_eq_zero_of_all_zero : ∀ l : List Mdpc.GF4,
    (∀ x ∈ l, Mdpc.GF4.is_zero x = true) → toPoly l = 0
  | [], _ => rfl
  | c :: rest, h => by
      have hc : c = Mdpc.GF4.Zero := (gf4_is_zero_iff c).mp (h c (List.mem_cons_self c rest))
      rw [toPoly_cons, hc, C_gf4_zero,
        toPoly_eq_zero_of_all_zero rest (fun x hx => h x (List.mem_cons_of_mem c hx)),
        mul_zero, add_zero]

theorem toPoly_replicate_zero : ∀ k : Nat, toPoly (List.replicate k Mdpc.GF4.Zero) = 0
  | 0 => rfl
  | k + 1 => by
      rw [List.replicate_succ, toPoly_cons, toPoly_replicate_zero k, C_gf4_zero,
        mul_zero, add_zero]

theorem toPoly_strip (v : List Mdpc.GF4) :
    toPoly (Mdpc.remove_trailing_zeros Mdpc.gf4Ops v) = toPoly v := by
  obtain ⟨zs, hv, hz⟩ := strip_decomposition Mdpc.gf4Ops v
  rw [remove_trailing_zeros_eq_trim]
  split
  · next h =>
    have htrim : (v.reverse.dropWhile (fun x => Mdpc.gf4Ops.is_zero x)).reverse = [] := by
      simpa [List.isEmpty_iff] using h
    have hv0 : toPoly v = 0 := by
      rw [hv, htrim, List.nil_append]
      exact toPoly_eq_zero_of_all_zero zs hz
    rw [hv0, gf4Ops_generate_zero, toPoly_zero_singleton]
  · next h =>
    conv_rhs => rw [hv]
    rw [toPoly_append, toPoly_eq_zero_of_all_zero zs hz, mul_zero, add_zero]

theorem toPoly_new_from_coefficients (v : List Mdpc.GF4) :
    toPoly (Mdpc.Polynomial.new_from_coefficients Mdpc.gf4Ops v).coefficients = toPoly v := by
  unfold Mdpc.Polynomial.new_from_coefficients
  split
  · next h =>
    rw [List.isEmpty_iff.mp h]
    exact toPoly_zero_singleton
  · exact toPoly_strip v

theorem getD_strip (v : List Mdpc.GF4) (i : Nat) :
    (Mdpc.remove_trailing_zeros Mdpc.gf4Ops v).getD i Mdpc.GF4.Zero
      = v.getD i Mdpc.GF4.Zero := by
  obtain ⟨zs, hv, hz⟩ := strip_decomposition Mdpc.gf4Ops v
  have hzs : ∀ j, zs.getD j Mdpc.GF4.Zero = Mdpc.GF4.Zero := by
    intro j
    by_cases hj : j < zs.length
    · rw [List.getD_eq_getElem _ _ hj]
      exact (gf4_is_zero_iff _).mp (hz _ (List.getElem_mem hj))
    · exact List.getD_eq_default _ _ (by omega)
  rw [remove_trailing_zeros_eq_trim]
  split
  · next h =>
    have htrim : (v.reverse.dropWhile (fun x => Mdpc.gf4Ops.is_zero x)).reverse = [] := by
      simpa [List.isEmpty_iff] using h
    rw [hv, htrim, List.nil_append, gf4Ops_generate_zero]
    have hl : ([Mdpc.GF4.Zero] : List Mdpc.GF4).getD i Mdpc.GF4.Zero = Mdpc.GF4.Zero := by
      cases i with
      | zero => rfl
      | succ n => rfl
    rw [hl, hzs i]
  · next h =>
    conv_rhs => rw [hv]
    set A := (v.reverse.dropWhile (fun x => Mdpc.gf4Ops.is_zero x)).reverse with hA
    by_cases hi : i < A.length
    · rw [List.getD_append _ _ _ _ hi]
    · rw [List.getD_eq_default _ _ (by omega),
        List.getD_append_right _ _ _ _ (by omega), hzs]

theorem getD_last {F : Type} : ∀ (l : List F) (d : F), l ≠ [] →
    l.getLast? = some (l.getD (l.length - 1) d)
  | [], _, h => absurd rfl h
  | [_], _, _ => rfl
  | a :: b :: t, d, _ => by
      rw [List.getLast?_cons_cons, getD_last (b :: t) d (by simp)]
      have harith : (a :: b :: t).length - 1 = ((b :: t).length - 1) + 1 := by
        simp [List.length_cons]
      rw [harith, List.getD_cons_succ]

theorem canonical_length_le {l₁ l₂ : List Mdpc.GF4} (h1ne : l₁ ≠ [])
    (h₂ : Mdpc.Canonical Mdpc.gf4Ops l₂)
    (hco : ∀ n, l₁.getD n Mdpc.GF4.Zero = l₂.getD n Mdpc.GF4.Zero) :
    l₂.length ≤ l₁.length := by
  rcases h₂ with ⟨h2ne, h2z | h2last⟩
  · rw [h2z]
    have hpos : 0 < l₁.length := List.length_pos.mpr h1ne
    simp only [List.length_singleton]
    omega
  · by_contra hlt
    push_neg at hlt
    have h1d : l₁.getD (l₂.length - 1) Mdpc.GF4.Zero = Mdpc.GF4.Zero :=
      List.getD_eq_default _ _ (by omega)
    have h2d := getD_last l₂ Mdpc.GF4.Zero h2ne
    unfold Mdpc.lastNonzero at h2last
    rw [h2d] at h2last
    simp only [Bool.not_eq_true'] at h2last
    rw [← hco, h1d] at h2last
    exact absurd h2last (by decide)

theorem toPoly_inj {l₁ l₂ : List Mdpc.GF4} (h₁ : Mdpc.Canonical Mdpc.gf4Ops l₁)
    (h₂ : Mdpc.Canonical Mdpc.gf4Ops l₂) (h : toPoly l₁ = toPoly l₂) : l₁ = l₂ := by
  have hco : ∀ n, l₁.getD n Mdpc.GF4.Zero = l₂.getD n Mdpc.GF4.Zero := by
    intro n
    rw [← coeff_toPoly, ← coeff_toPoly, h]
  have hlen : l₁.length = l₂.length :=
    Nat.le_antisymm
      (canonical_length_le h₂.1 h₁ (fun n => (hco n).symm))
      (canonical_length_le h₁.1 h₂ hco)
  apply List.ext_getElem hlen
  intro i hi₁ hi₂
  have := hco i
  rwa [List.getD_eq_getElem _ _ hi₁, List.getD_eq_getElem _ _ hi₂] at this

/- Homomorphism lemmas: the embedded ring operations agree with the
Mathlib operations through toPoly. -/

theorem combine_nil {F : Type} (f : F → F → F) : ∀ a : List F, Mdpc.combine f a [] = a
  | [] => rfl
  | _ :: _ => rfl

theorem toPoly_combine_add : ∀ (a b : List Mdpc.GF4), b.length ≤ a.length →
    toPoly (Mdpc.combine Mdpc.GF4.add a b) = toPoly a + toPoly b
  | a, [], _ => by
      rw [combine_nil, toPoly_nil, add_zero]
  | [], s :: ss, h => by simp at h
  | c :: cs, s :: ss, h => by
      show toPoly (Mdpc.GF4.add c s :: Mdpc.combine Mdpc.GF4.add cs ss) = _
      have hC : Polynomial.C (Mdpc.GF4.add c s) = Polynomial.C c + Polynomial.C s := by
        rw [← gf4_add_def, map_add]
      simp only [toPoly_cons, toPoly_combine_add cs ss (by simpa using h), hC]
      ring

theorem toPoly_combine_sub (a b : List Mdpc.GF4) (h : b.length ≤ a.length) :
    toPoly (Mdpc.combine Mdpc.GF4.sub a b) = toPoly a + toPoly b := by
  rw [gf4_sub_eq_add]
  exact toPoly_combine_add a b h

theorem toPoly_poly_add (p q : Mdpc.Polynomial Mdpc.GF4)
    (hp : p.coefficients ≠ []) (hq : q.coefficients ≠ []) :
    toPoly (Mdpc.Polynomial.add Mdpc.gf4Ops p q).coefficients
      = toPoly p.coefficients + toPoly q.coefficients := by
  have hlp : 0 < p.coefficients.length := List.length_pos.mpr hp
  have hlq : 0 < q.coefficients.length := List.length_pos.mpr hq
  by_cases hd : Mdpc.Polynomial.degree p ≥ Mdpc.Polynomial.degree q
  · have hlen : q.coefficients.length ≤ p.coefficients.length := by
      unfold Mdpc.Polynomial.degree at hd; omega
    simp only [Mdpc.Polynomial.add, gf4Ops_add]
    rw [if_pos hd, toPoly_new_from_coefficients, toPoly_combine_add _ _ hlen]
  · have hlen : p.coefficients.length ≤ q.coefficients.length := by
      unfold Mdpc.Polynomial.degree at hd; omega
    simp only [Mdpc.Polynomial.add, gf4Ops_add]
    rw [if_neg hd, toPoly_new_from_coefficients, toPoly_combine_add _ _ hlen, add_comm]

theorem toPoly_poly_sub (p q : Mdpc.Polynomial Mdpc.GF4)
    (hp : p.coefficients ≠ []) (hq : q.coefficients ≠ []) :
    toPoly (Mdpc.Polynomial.sub Mdpc.gf4Ops p q).coefficients
      = toPoly p.coefficients + toPoly q.coefficients := by
  have hlp : 0 < p.coefficients.length := List.length_pos.mpr hp
  have hlq : 0 < q.coefficients.length := List.length_pos.mpr hq
  by_cases hd : Mdpc.Polynomial.degree p ≥ Mdpc.Polynomial.degree q
  · have hlen : q.coefficients.length ≤ p.coefficients.length := by
      unfold Mdpc.Polynomial.degree at hd; omega
    simp only [Mdpc.Polynomial.sub, gf4Ops_sub]
    rw [if_pos hd, toPoly_new_from_coefficients, toPoly_combine_sub _ _ hlen]
  · have hlen : p.coefficients.length ≤ q.coefficients.length := by
      unfold Mdpc.Polynomial.degree at hd; omega
    simp only [Mdpc.Polynomial.sub, gf4Ops_sub]
    rw [if_neg hd, toPoly_new_from_coefficients, toPoly_combine_sub _ _ hlen, add_comm]

theorem toPoly_set : ∀ (res : List Mdpc.GF4) (k : Nat) (d : Mdpc.GF4),
    k < res.length → res.getD k Mdpc.GF4.Zero = Mdpc.GF4.Zero →
    toPoly (res.set k d) = toPoly res + Polynomial.C d * Polynomial.X ^ k
  | [], k, d, h, _ => by simp at h
  | r :: rs, 0, d, _, h0 => by
      have hr : r = Mdpc.GF4.Zero := by simpa using h0
      subst hr
      show toPoly (d :: rs) = _
      rw [toPoly_cons, toPoly_cons, C_gf4_zero]
      ring
  | r :: rs, k + 1, d, h, h0 => by
      show toPoly (r :: rs.set k d) = _
      rw [toPoly_cons,
        toPoly_set rs k d (by simpa using h) (by simpa using h0),
        toPoly_cons]
      ring

theorem addInto_nil : ∀ (acc : List Mdpc.GF4) (n : Nat),
    Mdpc.addInto Mdpc.gf4Ops acc n [] = acc
  | [], _ => rfl
  | _ :: _, 0 => rfl
  | _ :: _, _ + 1 => rfl

theorem toPoly_addInto : ∀ (acc : List Mdpc.GF4) (n : Nat) (xs : List Mdpc.GF4),
    n + xs.length ≤ acc.length →
    toPoly (Mdpc.addInto Mdpc.gf4Ops acc n xs)
      = toPoly acc + Polynomial.X ^ n * toPoly xs
  | acc, n, [], _ => by
      rw [addInto_nil, toPoly_nil, mul_zero, add_zero]
  | [], n, x :: xs, h => by simp at h
  | a :: acc, 0, x :: xs, h => by
      show toPoly (Mdpc.gf4Ops.add a x :: Mdpc.addInto Mdpc.gf4Ops acc 0 xs) = _
      have hC : Polynomial.C (Mdpc.gf4Ops.add a x) = Polynomial.C a + Polynomial.C x := by
        rw [gf4Ops_add, ← gf4_add_def, map_add]
      simp only [toPoly_cons, toPoly_addInto acc 0 xs (by simpa using h), hC]
      ring
  | a :: acc, n + 1, x :: xs, h => by
      show toPoly (a :: Mdpc.addInto Mdpc.gf4Ops acc n (x :: xs)) = _
      simp only [toPoly_cons,
        toPoly_addInto acc n (x :: xs) (by simp at h ⊢; omega)]
      ring

theorem addInto_length : ∀ (acc : List Mdpc.GF4) (n : Nat) (xs : List Mdpc.GF4),
    (Mdpc.addInto Mdpc.gf4Ops acc n xs).length = acc.length
  | acc, n, [] => by rw [addInto_nil]
  | [], _, _ :: _ => rfl
  | a :: acc, 0, x :: xs => by
      show (Mdpc.gf4Ops.add a x :: Mdpc.addInto Mdpc.gf4Ops acc 0 xs).length = _
      simp [addInto_length acc 0 xs]
  | a :: acc, n + 1, x :: xs => by
      show (a :: Mdpc.addInto Mdpc.gf4Ops acc n (x :: xs)).length = _
      simp [addInto_length acc n (x :: xs)]

theorem toPoly_map_mul (a : Mdpc.GF4) : ∀ b : List Mdpc.GF4,
    toPoly (b.map (fun jtem => Mdpc.gf4Ops.mul a jtem)) = Polynomial.C a * toPoly b
  | [] => by
      rw [List.map_nil, toPoly_nil, mul_zero]
  | x :: xs => by
      rw [List.map_cons, toPoly_cons, toPoly_map_mul a xs, toPoly_cons]
      have hC : Polynomial.C (Mdpc.gf4Ops.mul a x) = Polynomial.C a * Polynomial.C x := by
        rw [gf4Ops_mul, ← gf4_mul_def, map_mul]
      rw [hC]
      ring

theorem toPoly_mulLoop : ∀ (as_ : List Mdpc.GF4) (i : Nat) (acc b : List Mdpc.GF4),
    i + as_.length + b.length ≤ acc.length + 1 →
    toPoly (Mdpc.mulLoop Mdpc.gf4Ops b as_ i acc)
      = toPoly acc + Polynomial.X ^ i * (toPoly as_ * toPoly b)
  | [], i, acc, b, _ => by
      show toPoly acc = _
      rw [toPoly_nil, zero_mul, mul_zero, add_zero]
  | a :: as_, i, acc, b, h => by
      show toPoly (Mdpc.mulLoop Mdpc.gf4Ops b as_ (i + 1)
        (Mdpc.addInto Mdpc.gf4Ops acc i (b.map (fun jtem => Mdpc.gf4Ops.mul a jtem)))) = _
      rw [toPoly_mulLoop as_ (i + 1) _ b
          (by rw [addInto_length]; simp at h ⊢; omega),
        toPoly_addInto acc i _ (by rw [List.length_map]; simp at h ⊢; omega),
        toPoly_map_mul, toPoly_cons]
      ring

theorem toPoly_mulCoeffs (a b : List Mdpc.GF4) :
    toPoly (Mdpc.mulCoeffs Mdpc.gf4Ops a b) = toPoly a * toPoly b := by
  unfold Mdpc.mulCoeffs
  rw [gf4Ops_generate_zero,
    toPoly_mulLoop a 0 _ b (by rw [List.length_replicate]; omega),
    toPoly_replicate_zero, pow_zero, one_mul, zero_add]

theorem toPoly_poly_mul (p q : Mdpc.Polynomial Mdpc.GF4) :
    toPoly (Mdpc.Polynomial.mul Mdpc.gf4Ops p q).coefficients
      = toPoly p.coefficients * toPoly q.coefficients := by
  unfold Mdpc.Polynomial.mul
  rw [toPoly_new_from_coefficients, toPoly_mulCoeffs]

theorem gf4poly_add_self (x : Polynomial Mdpc.GF4) : x + x = 0 := by
  ext n
  simp [Polynomial.coeff_add, gf4_add_self]

/- Claim C6: coefficientwise description of Polynomial::sub.  Over a
general lawful field the loop applies sub as longer minus shorter, which
reverses the operand order when the second operand is strictly longer;
over the characteristic-2 reference field GF4 the order is invisible. -/

theorem gf4_sub_zero : ∀ x : Mdpc.GF4, Mdpc.GF4.sub x Mdpc.GF4.Zero = x := by decide

theorem gf4_zero_sub : ∀ x : Mdpc.GF4, Mdpc.GF4.sub Mdpc.GF4.Zero x = x := by decide

theorem gf4_sub_comm : ∀ a b : Mdpc.GF4, Mdpc.GF4.sub a b = Mdpc.GF4.sub b a := by decide

theorem getD_combine (f : Mdpc.GF4 → Mdpc.GF4 → Mdpc.GF4) :
    ∀ (a b : List Mdpc.GF4) (i : Nat), b.length ≤ a.length →
    (Mdpc.combine f a b).getD i Mdpc.GF4.Zero
      = if i < b.length
        then f (a.getD i Mdpc.GF4.Zero) (b.getD i Mdpc.GF4.Zero)
        else a.getD i Mdpc.GF4.Zero
  | a, [], i, _ => by simp [combine_nil]
  | [], s :: ss, i, h => by simp at h
  | c :: cs, s :: ss, 0, h => by
      show (f c s :: Mdpc.combine f cs ss).getD 0 Mdpc.GF4.Zero = _
      simp
  | c :: cs, s :: ss, i + 1, h => by
      show (f c s :: Mdpc.combine f cs ss).getD (i + 1) Mdpc.GF4.Zero = _
      rw [List.getD_cons_succ, getD_combine f cs ss i (by simpa using h)]
      simp [Nat.succ_lt_succ_iff]

theorem getD_new_from_coefficients (v : List Mdpc.GF4) (i : Nat) :
    (Mdpc.Polynomial.new_from_coefficients Mdpc.gf4Ops v).coefficients.getD i Mdpc.GF4.Zero
      = v.getD i Mdpc.GF4.Zero := by
  unfold Mdpc.Polynomial.new_from_coefficients
  split
  · next h =>
    rw [List.isEmpty_iff.mp h]
    cases i <;> rfl
  · exact getD_strip v i

/-- C6 amended.  Over the reference field GF4 (characteristic 2, where the
field sub coincides with add and is commutative) every coefficient of
p.sub(q) is the field subtraction of the coefficient of p minus the
coefficient of q at that index, missing coefficients read as zero. -/
theorem c6_amended : ∀ (p q : Mdpc.Polynomial Mdpc.GF4),
    p.coefficients ≠ [] → q.coefficients ≠ [] → ∀ i : Nat,
    (Mdpc.Polynomial.sub Mdpc.gf4Ops p q).coefficients.getD i Mdpc.GF4.Zero
      = Mdpc.GF4.sub (p.coefficients.getD i Mdpc.GF4.Zero)
          (q.coefficients.getD i Mdpc.GF4.Zero) := by
  intro p q hp hq i
  have hlp : 0 < p.coefficients.length := List.length_pos.mpr hp
  have hlq : 0 < q.coefficients.length := List.length_pos.mpr hq
  by_cases hd : Mdpc.Polynomial.degree p ≥ Mdpc.Polynomial.degree q
  · have hlen : q.coefficients.length ≤ p.coefficients.length := by
      unfold Mdpc.Polynomial.degree at hd; omega
    simp only [Mdpc.Polynomial.sub, gf4Ops_sub]
    rw [if_pos hd, getD_new_from_coefficients, getD_combine _ _ _ _ hlen]
    split
    · rfl
    · next hi =>
      rw [List.getD_eq_default q.coefficients _ (by omega), gf4_sub_zero]
  · have hlen : p.coefficients.length ≤ q.coefficients.length := by
      unfold Mdpc.Polynomial.degree at hd; omega
    simp only [Mdpc.Polynomial.sub, gf4Ops_sub]
    rw [if_neg hd, getD_new_from_coefficients, getD_combine _ _ _ _ hlen]
    split
    · exact gf4_sub_comm _ _
    · next hi =>
      rw [List.getD_eq_default p.coefficients _ (by omega), gf4_zero_sub]

/-- C6 witness: the amended claim applied at p = [1], q = [0, 1], index 0. -/
theorem c6_witness :
    (Mdpc.Polynomial.sub Mdpc.gf4Ops ⟨[.One]⟩ ⟨[.Zero, .One]⟩).coefficients.getD 0 Mdpc.GF4.Zero
      = Mdpc.GF4.sub (([Mdpc.GF4.One] : List Mdpc.GF4).getD 0 Mdpc.GF4.Zero)
          (([Mdpc.GF4.Zero, Mdpc.GF4.One] : List Mdpc.GF4).getD 0 Mdpc.GF4.Zero) :=
  c6_amended ⟨[.One]⟩ ⟨[.Zero, .One]⟩ (by decide) (by decide) 0

/-- C6 counterexample.  The claim as stated ranges over every field
satisfying the contract: over GF3 (which satisfies the contract) the code
computes q[0] sub p[0] when q is strictly longer, and the value differs
from p[0] sub q[0]. -/
theorem c6_counterexample :
    Mdpc.Lawful Mdpc.gf3Ops ∧
    (Mdpc.Polynomial.sub Mdpc.gf3Ops ⟨[1]⟩ ⟨[0, 1]⟩).coefficients.getD 0 0
      ≠ Mdpc.gf3Ops.sub (([1] : List Mdpc.GF3).getD 0 0)
          (([0, 1] : List Mdpc.GF3).getD 0 0) := by
  constructor
  · unfold Mdpc.Lawful
    decide
  · decide

/- Single-step equations for the two fuel loops, convenient for rewriting. -/

theorem divModLoop_succ (other : List Mdpc.GF4) (fuel : Nat) (cur res : List Mdpc.GF4) :
    Mdpc.divModLoop Mdpc.gf4Ops other (fuel + 1) cur res =
      if cur.length - 1 ≥ other.length - 1 then
        match Mdpc.gf4Ops.div (cur.getD (cur.length - 1) Mdpc.gf4Ops.generate_zero)
            (other.getD (other.length - 1) Mdpc.gf4Ops.generate_zero) with
        | none => .panicked
        | some d =>
            Mdpc.divModLoop Mdpc.gf4Ops other fuel
              (Mdpc.remove_trailing_zeros Mdpc.gf4Ops
                (Mdpc.elimInto Mdpc.gf4Ops cur (cur.length - other.length) other d))
              (res.set (cur.length - other.length) d)
      else .ok res cur := by
  rw [Mdpc.divModLoop]
  by_cases hc : cur.length - 1 ≥ other.length - 1
  · rw [if_pos hc, if_pos hc]
    cases Mdpc.gf4Ops.div (cur.getD (cur.length - 1) Mdpc.gf4Ops.generate_zero)
        (other.getD (other.length - 1) Mdpc.gf4Ops.generate_zero) with
    | none => rfl
    | some d => rfl
  · rw [if_neg hc, if_neg hc]

theorem xgcdLoop_succ (fuel : Nat) (rl rc tl tc : Mdpc.Polynomial Mdpc.GF4) :
    Mdpc.xgcdLoop Mdpc.gf4Ops (fuel + 1) rl rc tl tc =
      match Mdpc.Polynomial.div_mod Mdpc.gf4Ops rl rc with
      | .ok (some (q, m)) =>
          if Mdpc.Polynomial.is_one Mdpc.gf4Ops m then
            some (some m,
              some (Mdpc.Polynomial.sub Mdpc.gf4Ops tl (Mdpc.Polynomial.mul Mdpc.gf4Ops q tc)))
          else if Mdpc.Polynomial.is_zero Mdpc.gf4Ops m then
            some (some rc, none)
          else
            Mdpc.xgcdLoop Mdpc.gf4Ops fuel rc m tc
              (Mdpc.Polynomial.sub Mdpc.gf4Ops tl (Mdpc.Polynomial.mul Mdpc.gf4Ops q tc))
      | .ok none => some (none, none)
      | .panicked => none
      | .outOfFuel => none := by
  rw [Mdpc.xgcdLoop]
  cases Mdpc.Polynomial.div_mod Mdpc.gf4Ops rl rc with
  | ok o =>
    cases o with
    | none => rfl
    | some pr =>
      cases pr with
      | mk q m => rfl
  | panicked => rfl
  | outOfFuel => rfl

/- Claim C8: every public operation produces a canonical Polynomial. -/

theorem new_canonical :
    Mdpc.Canonical Mdpc.gf4Ops (Mdpc.Polynomial.new Mdpc.gf4Ops).coefficients :=
  ⟨by simp [Mdpc.Polynomial.new], Or.inl rfl⟩

theorem add_canonical (p q : Mdpc.Polynomial Mdpc.GF4) :
    Mdpc.Canonical Mdpc.gf4Ops (Mdpc.Polynomial.add Mdpc.gf4Ops p q).coefficients := by
  simp only [Mdpc.Polynomial.add]
  exact new_from_coefficients_canonical _ _

theorem sub_canonical (p q : Mdpc.Polynomial Mdpc.GF4) :
    Mdpc.Canonical Mdpc.gf4Ops (Mdpc.Polynomial.sub Mdpc.gf4Ops p q).coefficients := by
  simp only [Mdpc.Polynomial.sub]
  exact new_from_coefficients_canonical _ _

theorem mul_canonical (p q : Mdpc.Polynomial Mdpc.GF4) :
    Mdpc.Canonical Mdpc.gf4Ops (Mdpc.Polynomial.mul Mdpc.gf4Ops p q).coefficients := by
  simp only [Mdpc.Polynomial.mul]
  exact new_from_coefficients_canonical _ _

theorem div_mod_canonical (p q quo rem : Mdpc.Polynomial Mdpc.GF4)
    (hp : Mdpc.Canonical Mdpc.gf4Ops p.coefficients)
    (h : Mdpc.Polynomial.div_mod Mdpc.gf4Ops p q = .ok (some (quo, rem))) :
    Mdpc.Canonical Mdpc.gf4Ops quo.coefficients ∧
    Mdpc.Canonical Mdpc.gf4Ops rem.coefficients := by
  unfold Mdpc.Polynomial.div_mod at h
  split at h
  · simp only [Mdpc.DivModResult.ok.injEq, Option.some.injEq, Prod.mk.injEq] at h
    obtain ⟨h1, h2⟩ := h
    rw [← h1, ← h2]
    exact ⟨new_canonical, hp⟩
  · split at h
    · simp at h
    · split at h
      · next res cur heq =>
        simp only [Mdpc.DivModResult.ok.injEq, Option.some.injEq, Prod.mk.injEq] at h
        obtain ⟨h1, h2⟩ := h
        rw [← h1, ← h2]
        exact ⟨new_from_coefficients_canonical _ _, new_from_coefficients_canonical _ _⟩
      · simp at h
      · simp at h

theorem xgcdLoop_inverse_canonical :
    ∀ (fuel : Nat) (rl rc tl tc : Mdpc.Polynomial Mdpc.GF4)
      (g : Option (Mdpc.Polynomial Mdpc.GF4)) (t : Mdpc.Polynomial Mdpc.GF4),
    Mdpc.xgcdLoop Mdpc.gf4Ops fuel rl rc tl tc = some (g, some t) →
    Mdpc.Canonical Mdpc.gf4Ops t.coefficients
  | 0, _, _, _, _, _, _, h => by simp [Mdpc.xgcdLoop] at h
  | fuel + 1, rl, rc, tl, tc, g, t, h => by
      rw [xgcdLoop_succ] at h
      split at h
      · split at h
        · simp only [Option.some.injEq, Prod.mk.injEq] at h
          rw [← h.2]
          exact sub_canonical _ _
        · split at h
          · simp at h
          · exact xgcdLoop_inverse_canonical fuel _ _ _ _ g t h
      · simp at h
      · simp at h
      · simp at h

theorem invert_canonical (p m t : Mdpc.Polynomial Mdpc.GF4)
    (h : Mdpc.Polynomial.invert Mdpc.gf4Ops p m = some (some t)) :
    Mdpc.Canonical Mdpc.gf4Ops t.coefficients := by
  unfold Mdpc.Polynomial.invert at h
  cases hx : Mdpc.xgcd Mdpc.gf4Ops p m with
  | none => rw [hx] at h; simp at h
  | some pr =>
    rw [hx] at h
    simp only [Option.map_some', Option.some.injEq] at h
    obtain ⟨g, inv⟩ := pr
    unfold Mdpc.xgcd at hx
    split at hx
    · simp only [Option.some.injEq, Prod.mk.injEq] at hx
      rw [← hx.2] at h
      simp at h
    · have hinv : inv = some t := by simpa using h
      subst hinv
      exact xgcdLoop_inverse_canonical _ _ _ _ _ g t hx

/-- C8.  Canonical-form invariant: the zero polynomial constructor,
new_from_coefficients, add, sub, mul, both components of a successful
div_mod (given a canonical dividend, since the short-division branch
returns the dividend itself), and every inverse returned by invert produce
a non-empty coefficient sequence that is either the single-zero form or
ends in a non-zero coefficient. -/
theorem c8_canonical_invariant :
    Mdpc.Canonical Mdpc.gf4Ops (Mdpc.Polynomial.new Mdpc.gf4Ops).coefficients ∧
    (∀ v : List Mdpc.GF4,
      Mdpc.Canonical Mdpc.gf4Ops
        (Mdpc.Polynomial.new_from_coefficients Mdpc.gf4Ops v).coefficients) ∧
    (∀ p q : Mdpc.Polynomial Mdpc.GF4,
      Mdpc.Canonical Mdpc.gf4Ops (Mdpc.Polynomial.add Mdpc.gf4Ops p q).coefficients) ∧
    (∀ p q : Mdpc.Polynomial Mdpc.GF4,
      Mdpc.Canonical Mdpc.gf4Ops (Mdpc.Polynomial.sub Mdpc.gf4Ops p q).coefficients) ∧
    (∀ p q : Mdpc.Polynomial Mdpc.GF4,
      Mdpc.Canonical Mdpc.gf4Ops (Mdpc.Polynomial.mul Mdpc.gf4Ops p q).coefficients) ∧
    (∀ p q quo rem : Mdpc.Polynomial Mdpc.GF4,
      Mdpc.Canonical Mdpc.gf4Ops p.coefficients →
      Mdpc.Polynomial.div_mod Mdpc.gf4Ops p q = .ok (some (quo, rem)) →
      Mdpc.Canonical Mdpc.gf4Ops quo.coefficients ∧
      Mdpc.Canonical Mdpc.gf4Ops rem.coefficients) ∧
    (∀ p m t : Mdpc.Polynomial Mdpc.GF4,
      Mdpc.Polynomial.invert Mdpc.gf4Ops p m = some (some t) →
      Mdpc.Canonical Mdpc.gf4Ops t.coefficients) :=
  ⟨new_canonical, fun v => new_from_coefficients_canonical _ v, add_canonical,
    sub_canonical, mul_canonical, div_mod_canonical, invert_canonical⟩

/-- C8 witness: the invariant applied to the concrete division of
[1,0,1,a,a+1] by [1,a] and to the concrete inverse computed modulo
[0,1,0,a]. -/
theorem c8_witness :
    (Mdpc.Canonical Mdpc.gf4Ops
        (⟨[.Alpha, .AlphaPlusOne, .Zero, .Alpha]⟩ : Mdpc.Polynomial Mdpc.GF4).coefficients ∧
      Mdpc.Canonical Mdpc.gf4Ops
        (⟨[.AlphaPlusOne]⟩ : Mdpc.Polynomial Mdpc.GF4).coefficients) ∧
    Mdpc.Canonical Mdpc.gf4Ops (⟨[.Zero]⟩ : Mdpc.Polynomial Mdpc.GF4).coefficients :=
  ⟨c8_canonical_invariant.2.2.2.2.2.1
      ⟨[.One, .Zero, .One, .Alpha, .AlphaPlusOne]⟩ ⟨[.One, .Alpha]⟩
      ⟨[.Alpha, .AlphaPlusOne, .Zero, .Alpha]⟩ ⟨[.AlphaPlusOne]⟩
      (by decide) (by decide),
    c8_canonical_invariant.2.2.2.2.2.2
      ⟨[.One, .Zero, .One]⟩ ⟨[.Zero, .One, .Zero, .Alpha]⟩ ⟨[.Zero]⟩
      (by decide)⟩

/- Claim C9: the unwrap of the field division inside div_mod never
panics when the divisor is canonical and non-zero, because the leading
coefficient of the divisor is then non-zero. -/

theorem canonical_nonzero_last (q : Mdpc.Polynomial Mdpc.GF4)
    (hq : Mdpc.Canonical Mdpc.gf4Ops q.coefficients)
    (hnz : Mdpc.Polynomial.is_zero Mdpc.gf4Ops q = false) :
    q.coefficients.getD (q.coefficients.length - 1) Mdpc.GF4.Zero ≠ Mdpc.GF4.Zero := by
  rcases hq with ⟨hne, hz | hlast⟩
  · exfalso
    unfold Mdpc.Polynomial.is_zero Mdpc.Polynomial.degree at hnz
    rw [hz] at hnz
    simp [gf4Ops_is_zero, Mdpc.GF4.is_zero, gf4Ops_generate_zero] at hnz
  · unfold Mdpc.lastNonzero at hlast
    rw [getD_last q.coefficients Mdpc.GF4.Zero hne] at hlast
    simp only [Bool.not_eq_eq_eq_not, Bool.not_true] at hlast
    intro hcontra
    rw [hcontra] at hlast
    exact absurd hlast (by decide)

theorem divModLoop_no_panic (other : List Mdpc.GF4)
    (h : other.getD (other.length - 1) Mdpc.GF4.Zero ≠ Mdpc.GF4.Zero) :
    ∀ (fuel : Nat) (cur res : List Mdpc.GF4),
      Mdpc.divModLoop Mdpc.gf4Ops other fuel cur res ≠ .panicked
  | 0, cur, res => by
      rw [Mdpc.divModLoop]
      exact fun h => Mdpc.LoopResult.noConfusion h
  | fuel + 1, cur, res => by
      rw [divModLoop_succ]
      split
      · have hsome := gf4_div_isSome
          (cur.getD (cur.length - 1) Mdpc.GF4.Zero)
          (other.getD (other.length - 1) Mdpc.GF4.Zero) h
        split
        · next heq =>
          rw [gf4Ops_div, gf4Ops_generate_zero] at heq
          rw [heq] at hsome
          simp at hsome
        · exact divModLoop_no_panic other h fuel _ _
      · simp

/-- C9.  In every elimination step of div_mod with a canonical non-zero
divisor, the field division of the leading coefficients is defined: the
loop can never reach the panicking unwrap, and div_mod never returns the
panic outcome, whatever the dividend. -/
theorem c9_div_always_defined : ∀ other : Mdpc.Polynomial Mdpc.GF4,
    Mdpc.Canonical Mdpc.gf4Ops other.coefficients →
    Mdpc.Polynomial.is_zero Mdpc.gf4Ops other = false →
    (∀ (fuel : Nat) (cur res : List Mdpc.GF4),
        Mdpc.divModLoop Mdpc.gf4Ops other.coefficients fuel cur res ≠ .panicked) ∧
    (∀ p : Mdpc.Polynomial Mdpc.GF4,
        Mdpc.Polynomial.div_mod Mdpc.gf4Ops p other ≠ .panicked) := by
  intro other hcan hnz
  have hlast := canonical_nonzero_last other hcan hnz
  refine ⟨divModLoop_no_panic other.coefficients hlast, ?_⟩
  intro p
  unfold Mdpc.Polynomial.div_mod
  split
  · simp
  · split
    · simp
    · split
      · simp
      · next heq => exact absurd heq (divModLoop_no_panic other.coefficients hlast _ _ _)
      · simp

/-- C9 witness: the safety statement applied to the canonical non-zero
divisor [1, a] and the dividend [1]. -/
theorem c9_witness :
    Mdpc.Polynomial.div_mod Mdpc.gf4Ops ⟨[Mdpc.GF4.One]⟩ ⟨[Mdpc.GF4.One, Mdpc.GF4.Alpha]⟩
      ≠ .panicked :=
  (c9_div_always_defined ⟨[Mdpc.GF4.One, Mdpc.GF4.Alpha]⟩ (by decide) (by decide)).2
    ⟨[Mdpc.GF4.One]⟩

/- The elimination pass of the division loop, described as a take, a
zipWith on the aligned window, and an untouched tail. -/

theorem elimInto_nil (d : Mdpc.GF4) : ∀ (cur : List Mdpc.GF4) (k : Nat),
    Mdpc.elimInto Mdpc.gf4Ops cur k [] d = cur
  | [], _ => rfl
  | _ :: _, 0 => rfl
  | _ :: _, _ + 1 => rfl

theorem elimInto_eq (d : Mdpc.GF4) : ∀ (cur : List Mdpc.GF4) (k : Nat) (os : List Mdpc.GF4),
    Mdpc.elimInto Mdpc.gf4Ops cur k os d
      = cur.take k
        ++ List.zipWith (fun c o => Mdpc.GF4.sub c (Mdpc.GF4.mul o d)) (cur.drop k) os
        ++ ((cur.drop k).drop os.length)
  | cur, k, [] => by
      rw [elimInto_nil]
      simp [List.take_append_drop]
  | [], k, o :: os => by
      cases k <;> rfl
  | c :: cur, 0, o :: os => by
      show Mdpc.gf4Ops.sub c (Mdpc.gf4Ops.mul o d) :: Mdpc.elimInto Mdpc.gf4Ops cur 0 os d = _
      rw [elimInto_eq d cur 0 os]
      simp [gf4Ops_sub, gf4Ops_mul]
  | c :: cur, k + 1, o :: os => by
      show c :: Mdpc.elimInto Mdpc.gf4Ops cur k (o :: os) d = _
      rw [elimInto_eq d cur k (o :: os)]
      simp

theorem toPoly_zipWith_elim (d : Mdpc.GF4) : ∀ (xs os : List Mdpc.GF4),
    xs.length = os.length →
    toPoly (List.zipWith (fun c o => Mdpc.GF4.sub c (Mdpc.GF4.mul o d)) xs os)
      = toPoly xs + Polynomial.C d * toPoly os
  | [], [], _ => by simp [toPoly_nil]
  | [], _ :: _, h => by simp at h
  | _ :: _, [], h => by simp at h
  | x :: xs, o :: os, h => by
      rw [List.zipWith_cons_cons]
      have hC : Polynomial.C (Mdpc.GF4.sub x (Mdpc.GF4.mul o d))
          = Polynomial.C x + Polynomial.C o * Polynomial.C d := by
        rw [gf4_sub_eq_add, ← gf4_add_def, ← gf4_mul_def, map_add, map_mul]
      simp only [toPoly_cons, toPoly_zipWith_elim d xs os (by simpa using h), hC]
      ring

theorem toPoly_elimInto (cur O : List Mdpc.GF4) (k : Nat) (d : Mdpc.GF4)
    (hfit : k + O.length = cur.length) :
    toPoly (Mdpc.elimInto Mdpc.gf4Ops cur k O d)
      = toPoly cur + Polynomial.X ^ k * (Polynomial.C d * toPoly O) := by
  rw [elimInto_eq]
  have hkle : k ≤ cur.length := by omega
  have hdroplen : (cur.drop k).length = O.length := by
    rw [List.length_drop]; omega
  have htail : (cur.drop k).drop O.length = [] :=
    List.drop_eq_nil_of_le (by omega)
  have htake : (cur.take k).length = k := by
    rw [List.length_take]; omega
  rw [htail, List.append_nil, toPoly_append, toPoly_zipWith_elim d _ _ hdroplen, htake]
  conv_rhs => rw [← List.take_append_drop k cur]
  rw [toPoly_append, htake]
  ring

theorem elimInto_getD_last (cur O : List Mdpc.GF4) (k : Nat) (d : Mdpc.GF4)
    (hfit : k + O.length = cur.length) (hO : O ≠ []) :
    (Mdpc.elimInto Mdpc.gf4Ops cur k O d).getD (cur.length - 1) Mdpc.GF4.Zero
      = Mdpc.GF4.sub (cur.getD (cur.length - 1) Mdpc.GF4.Zero)
          (Mdpc.GF4.mul (O.getD (O.length - 1) Mdpc.GF4.Zero) d) := by
  rw [elimInto_eq]
  have hOpos : 0 < O.length := List.length_pos.mpr hO
  have hkle : k ≤ cur.length := by omega
  have hdroplen : (cur.drop k).length = O.length := by
    rw [List.length_drop]; omega
  have htail : (cur.drop k).drop O.length = [] :=
    List.drop_eq_nil_of_le (by omega)
  have htake : (cur.take k).length = k := by
    rw [List.length_take]; omega
  have hziplen : (List.zipWith (fun c o => Mdpc.GF4.sub c (Mdpc.GF4.mul o d))
      (cur.drop k) O).length = O.length := by
    rw [List.length_zipWith, hdroplen, Nat.min_self]
  rw [htail, List.append_nil]
  have hidx : cur.length - 1 = k + (O.length - 1) := by omega
  rw [hidx, List.getD_append_right _ _ _ _ (by omega), htake]
  have hsub : k + (O.length - 1) - k = O.length - 1 := by omega
  rw [hsub]
  have hlt : O.length - 1
      < (List.zipWith (fun c o => Mdpc.GF4.sub c (Mdpc.GF4.mul o d)) (cur.drop k) O).length := by
    omega
  rw [List.getD_eq_getElem _ _ hlt, List.getElem_zipWith]
  have hlt2 : O.length - 1 < (cur.drop k).length := by omega
  have hlt3 : O.length - 1 < O.length := by omega
  have hcurlt : cur.length - 1 < cur.length := by omega
  rw [← List.getD_eq_getElem (cur.drop k) Mdpc.GF4.Zero hlt2,
    ← List.getD_eq_getElem O Mdpc.GF4.Zero hlt3]
  have hdropelem : (cur.drop k).getD (O.length - 1) Mdpc.GF4.Zero
      = cur.getD (cur.length - 1) Mdpc.GF4.Zero := by
    rw [List.getD_eq_getElem _ _ hlt2, List.getElem_drop,
      ← List.getD_eq_getElem cur Mdpc.GF4.Zero (show k + (O.length - 1) < cur.length by omega),
      ← hidx]
  rw [hdropelem, hidx]

theorem getD_set_ne : ∀ (res : List Mdpc.GF4) (i k : Nat) (d : Mdpc.GF4), i ≠ k →
    (res.set i d).getD k Mdpc.GF4.Zero = res.getD k Mdpc.GF4.Zero
  | [], _, _, _, _ => by simp
  | r :: rs, 0, 0, d, h => absurd rfl h
  | r :: rs, 0, k + 1, d, h => by
      show (d :: rs).getD (k + 1) Mdpc.GF4.Zero = _
      rw [List.getD_cons_succ, List.getD_cons_succ]
  | r :: rs, i + 1, 0, d, h => by
      show (r :: rs.set i d).getD 0 Mdpc.GF4.Zero = _
      rw [List.getD_cons_zero, List.getD_cons_zero]
  | r :: rs, i + 1, k + 1, d, h => by
      show (r :: rs.set i d).getD (k + 1) Mdpc.GF4.Zero = _
      rw [List.getD_cons_succ, List.getD_cons_succ, getD_set_ne rs i k d (by omega)]

theorem getD_replicate_zero : ∀ (n k : Nat),
    (List.replicate n Mdpc.GF4.Zero).getD k Mdpc.GF4.Zero = Mdpc.GF4.Zero
  | 0, _ => by simp
  | n + 1, 0 => by rw [List.replicate_succ, List.getD_cons_zero]
  | n + 1, k + 1 => by
      rw [List.replicate_succ, List.getD_cons_succ, getD_replicate_zero n k]

theorem length_dropWhile_le {F : Type} (p : F → Bool) : ∀ l : List F,
    (l.dropWhile p).length ≤ l.length
  | [] => le_refl 0
  | a :: l => by
      rw [List.dropWhile_cons]
      split
      · exact le_trans (length_dropWhile_le p l) (by simp)
      · exact le_refl _

theorem strip_length_le (l : List Mdpc.GF4) (h : l ≠ []) :
    (Mdpc.remove_trailing_zeros Mdpc.gf4Ops l).length ≤ l.length := by
  rw [remove_trailing_zeros_eq_trim]
  split
  · simpa using List.length_pos.mpr h
  · rw [List.length_reverse]
    exact le_trans (length_dropWhile_le _ _) (le_of_eq (List.length_reverse _))

theorem strip_length_lt (l : List Mdpc.GF4) (hlen : 2 ≤ l.length)
    (hlast : l.getD (l.length - 1) Mdpc.GF4.Zero = Mdpc.GF4.Zero) :
    (Mdpc.remove_trailing_zeros Mdpc.gf4Ops l).length < l.length := by
  have hne : l ≠ [] := by
    intro hnil; rw [hnil] at hlen; simp at hlen
  obtain ⟨tail, htail⟩ : ∃ t, l.reverse = Mdpc.GF4.Zero :: t := by
    have hrev : l.reverse.head? = some Mdpc.GF4.Zero := by
      rw [List.head?_reverse, getD_last l Mdpc.GF4.Zero hne, hlast]
    cases hrev' : l.reverse with
    | nil => rw [hrev'] at hrev; simp at hrev
    | cons a t =>
      rw [hrev'] at hrev
      simp only [List.head?_cons, Option.some.injEq] at hrev
      exact ⟨t, by rw [hrev]⟩
  have hlt : l.length = tail.length + 1 := by
    have hc := congrArg List.length htail
    rw [List.length_reverse] at hc
    simpa using hc
  rw [remove_trailing_zeros_eq_trim]
  split
  · simp only [List.length_singleton]
    omega
  · rw [List.length_reverse, htail, List.dropWhile_cons, if_pos (by rfl)]
    have hdw := length_dropWhile_le (fun x => Mdpc.gf4Ops.is_zero x) tail
    omega

/- Claims C2 and C5: the division loop never terminates on a divisor of
degree zero.  Once the remainder becomes the zero polynomial the loop
condition remains true forever and the state repeats. -/

theorem divModLoop_stuck_zero (c : Mdpc.GF4) (hc : c ≠ Mdpc.GF4.Zero) :
    ∀ (fuel : Nat) (res : List Mdpc.GF4),
      Mdpc.divModLoop Mdpc.gf4Ops [c] fuel [Mdpc.GF4.Zero] res = .outOfFuel := by
  intro fuel
  induction fuel with
  | zero => intro res; rfl
  | succ n ih =>
    intro res
    cases c with
    | Zero => exact absurd rfl hc
    | One => exact ih (res.set 0 Mdpc.GF4.Zero)
    | Alpha => exact ih (res.set 0 Mdpc.GF4.Zero)
    | AlphaPlusOne => exact ih (res.set 0 Mdpc.GF4.Zero)

/-- C2 counterexample.  Dividing the one polynomial by the one polynomial
(a non-zero divisor of degree 0): the division loop runs out of any
amount of fuel, i.e. the Rust while loop never terminates. -/
theorem c2_counterexample :
    Mdpc.Polynomial.is_zero Mdpc.gf4Ops ⟨[Mdpc.GF4.One]⟩ = false ∧
    Mdpc.div_mod_diverges ⟨[Mdpc.GF4.One]⟩ ⟨[Mdpc.GF4.One]⟩ ∧
    Mdpc.Polynomial.div_mod Mdpc.gf4Ops ⟨[Mdpc.GF4.One]⟩ ⟨[Mdpc.GF4.One]⟩ = .outOfFuel := by
  refine ⟨by decide, ?_, by decide⟩
  intro fuel
  cases fuel with
  | zero => rfl
  | succ n => exact divModLoop_stuck_zero Mdpc.GF4.One (by decide) n _

/-- C5 counterexample.  For the dividend [a] and the non-zero divisor [1]
the division loop runs out of any amount of fuel, so div_mod does not
return any quotient and remainder pair: the division identity claim fails
for non-zero divisors of degree 0. -/
theorem c5_counterexample :
    Mdpc.Polynomial.is_zero Mdpc.gf4Ops ⟨[Mdpc.GF4.One]⟩ = false ∧
    Mdpc.div_mod_diverges ⟨[Mdpc.GF4.Alpha]⟩ ⟨[Mdpc.GF4.One]⟩ ∧
    Mdpc.Polynomial.div_mod Mdpc.gf4Ops ⟨[Mdpc.GF4.Alpha]⟩ ⟨[Mdpc.GF4.One]⟩ = .outOfFuel := by
  refine ⟨by decide, ?_, by decide⟩
  intro fuel
  cases fuel with
  | zero => rfl
  | succ n => exact divModLoop_stuck_zero Mdpc.GF4.One (by decide) n _

/- The division loop terminates and satisfies the Euclidean invariant
whenever the divisor has degree at least one. -/

theorem divModLoop_main (O : List Mdpc.GF4)
    (hOlast : O.getD (O.length - 1) Mdpc.GF4.Zero ≠ Mdpc.GF4.Zero)
    (hO2 : 2 ≤ O.length) :
    ∀ (fuel : Nat) (cur res : List Mdpc.GF4), cur ≠ [] → cur.length ≤ fuel →
      cur.length ≤ res.length →
      (∀ k, k + O.length ≤ cur.length → res.getD k Mdpc.GF4.Zero = Mdpc.GF4.Zero) →
      ∃ resF curF,
        Mdpc.divModLoop Mdpc.gf4Ops O fuel cur res = .ok resF curF ∧
        curF ≠ [] ∧ curF.length - 1 < O.length - 1 ∧
        toPoly curF + toPoly resF * toPoly O = toPoly cur + toPoly res * toPoly O
  | 0, cur, res, hne, hfuel, _, _ => by
      have := List.length_pos.mpr hne
      omega
  | fuel + 1, cur, res, hne, hfuel, hreslen, hzero => by
      by_cases hc : cur.length - 1 ≥ O.length - 1
      · have hcpos : 0 < cur.length := List.length_pos.mpr hne
        have hOle : O.length ≤ cur.length := by omega
        have hcl2 : 2 ≤ cur.length := by omega
        have hOne : O ≠ [] := by
          intro h0; rw [h0] at hO2; simp at hO2
        obtain ⟨d, hdd⟩ : ∃ d, Mdpc.GF4.div (cur.getD (cur.length - 1) Mdpc.GF4.Zero)
            (O.getD (O.length - 1) Mdpc.GF4.Zero) = some d :=
          Option.isSome_iff_exists.mp (gf4_div_isSome _ _ hOlast)
        have hfit : (cur.length - O.length) + O.length = cur.length := by omega
        have hstep : Mdpc.divModLoop Mdpc.gf4Ops O (fuel + 1) cur res
            = Mdpc.divModLoop Mdpc.gf4Ops O fuel
                (Mdpc.remove_trailing_zeros Mdpc.gf4Ops
                  (Mdpc.elimInto Mdpc.gf4Ops cur (cur.length - O.length) O d))
                (res.set (cur.length - O.length) d) := by
          rw [divModLoop_succ, if_pos hc, gf4Ops_div, gf4Ops_generate_zero, hdd]
        have hcur2len : (Mdpc.elimInto Mdpc.gf4Ops cur (cur.length - O.length) O d).length
            = cur.length := by
          rw [elimInto_eq]
          simp only [List.length_append, List.length_zipWith, List.length_take,
            List.length_drop]
          omega
        have hlastzero : (Mdpc.elimInto Mdpc.gf4Ops cur (cur.length - O.length) O d).getD
            (cur.length - 1) Mdpc.GF4.Zero = Mdpc.GF4.Zero := by
          rw [elimInto_getD_last _ _ _ _ hfit hOne]
          exact gf4_div_cancel _ _ _ hdd
        have hcur3lt : (Mdpc.remove_trailing_zeros Mdpc.gf4Ops
            (Mdpc.elimInto Mdpc.gf4Ops cur (cur.length - O.length) O d)).length
            < cur.length := by
          have h := strip_length_lt (Mdpc.elimInto Mdpc.gf4Ops cur (cur.length - O.length) O d)
            (by rw [hcur2len]; exact hcl2)
            (by rw [hcur2len]; exact hlastzero)
          rw [hcur2len] at h
          exact h
        have hoffres : cur.length - O.length < res.length := by omega
        have hgd0 : res.getD (cur.length - O.length) Mdpc.GF4.Zero = Mdpc.GF4.Zero :=
          hzero (cur.length - O.length) (by omega)
        obtain ⟨resF, curF, hloop, hcne, hdeg, heq⟩ :=
          divModLoop_main O hOlast hO2 fuel
            (Mdpc.remove_trailing_zeros Mdpc.gf4Ops
              (Mdpc.elimInto Mdpc.gf4Ops cur (cur.length - O.length) O d))
            (res.set (cur.length - O.length) d)
            (strip_ne_nil _ _)
            (by omega)
            (by rw [List.length_set]; omega)
            (by
              intro k hk
              have hkoff : k ≠ cur.length - O.length := by omega
              rw [getD_set_ne res _ k d (fun h => hkoff h.symm)]
              exact hzero k (by omega))
        refine ⟨resF, curF, ?_, hcne, hdeg, ?_⟩
        · rw [hstep]; exact hloop
        · rw [heq, toPoly_strip, toPoly_elimInto cur O _ d hfit,
            toPoly_set res _ d hoffres hgd0]
          have ht := gf4poly_add_self
            (Polynomial.X ^ (cur.length - O.length) * (Polynomial.C d * toPoly O))
          calc toPoly cur + Polynomial.X ^ (cur.length - O.length) * (Polynomial.C d * toPoly O)
                + (toPoly res + Polynomial.C d * Polynomial.X ^ (cur.length - O.length)) * toPoly O
              = toPoly cur + toPoly res * toPoly O
                + (Polynomial.X ^ (cur.length - O.length) * (Polynomial.C d * toPoly O)
                   + Polynomial.X ^ (cur.length - O.length) * (Polynomial.C d * toPoly O)) := by
                ring
            _ = toPoly cur + toPoly res * toPoly O := by rw [ht, add_zero]
      · refine ⟨res, cur, ?_, hne, by omega, rfl⟩
        rw [divModLoop_succ, if_neg hc]

theorem poly_eq_of_coefficients {p q : Mdpc.Polynomial Mdpc.GF4}
    (h : p.coefficients = q.coefficients) : p = q := by
  cases p; cases q; simpa using h

theorem new_from_coefficients_coe (v : List Mdpc.GF4) (h : v ≠ []) :
    (Mdpc.Polynomial.new_from_coefficients Mdpc.gf4Ops v).coefficients
      = Mdpc.remove_trailing_zeros Mdpc.gf4Ops v := by
  unfold Mdpc.Polynomial.new_from_coefficients
  rw [if_neg (by simpa [List.isEmpty_iff] using h)]

theorem is_zero_false_of_degree (other : Mdpc.Polynomial Mdpc.GF4)
    (h : 1 ≤ Mdpc.Polynomial.degree other) :
    Mdpc.Polynomial.is_zero Mdpc.gf4Ops other = false := by
  unfold Mdpc.Polynomial.is_zero
  have hb : (Mdpc.Polynomial.degree other == 0) = false := by
    rw [beq_eq_false_iff_ne]
    omega
  rw [hb, Bool.false_and]

theorem div_mod_main (p other : Mdpc.Polynomial Mdpc.GF4)
    (hp : Mdpc.Canonical Mdpc.gf4Ops p.coefficients)
    (hoc : Mdpc.Canonical Mdpc.gf4Ops other.coefficients)
    (ho2 : 1 ≤ Mdpc.Polynomial.degree other) :
    ∃ q r : Mdpc.Polynomial Mdpc.GF4,
      Mdpc.Polynomial.div_mod Mdpc.gf4Ops p other = .ok (some (q, r)) ∧
      Mdpc.Canonical Mdpc.gf4Ops q.coefficients ∧
      Mdpc.Canonical Mdpc.gf4Ops r.coefficients ∧
      Mdpc.Polynomial.degree r < Mdpc.Polynomial.degree other ∧
      toPoly p.coefficients
        = toPoly q.coefficients * toPoly other.coefficients + toPoly r.coefficients := by
  have hone : other.coefficients ≠ [] := hoc.1
  have holen : 2 ≤ other.coefficients.length := by
    unfold Mdpc.Polynomial.degree at ho2
    have := List.length_pos.mpr hone
    omega
  have hnz : Mdpc.Polynomial.is_zero Mdpc.gf4Ops other = false :=
    is_zero_false_of_degree other ho2
  have hOlast := canonical_nonzero_last other hoc hnz
  by_cases hdeg : Mdpc.Polynomial.degree p < Mdpc.Polynomial.degree other
  · refine ⟨Mdpc.Polynomial.new Mdpc.gf4Ops, p, ?_, new_canonical, hp, hdeg, ?_⟩
    · unfold Mdpc.Polynomial.div_mod
      rw [if_pos hdeg]
    · show toPoly p.coefficients
        = toPoly [Mdpc.gf4Ops.generate_zero] * toPoly other.coefficients
          + toPoly p.coefficients
      rw [gf4Ops_generate_zero, toPoly_zero_singleton, zero_mul, zero_add]
  · obtain ⟨resF, curF, hloop, hcne, hdeglt, heq⟩ :=
      divModLoop_main other.coefficients hOlast holen p.coefficients.length
        p.coefficients (List.replicate p.coefficients.length Mdpc.GF4.Zero)
        hp.1 (le_refl _) (by rw [List.length_replicate])
        (fun k _ => getD_replicate_zero _ _)
    refine ⟨Mdpc.Polynomial.new_from_coefficients Mdpc.gf4Ops resF,
            Mdpc.Polynomial.new_from_coefficients Mdpc.gf4Ops curF, ?_,
            new_from_coefficients_canonical _ _, new_from_coefficients_canonical _ _,
            ?_, ?_⟩
    · unfold Mdpc.Polynomial.div_mod
      rw [if_neg hdeg, if_neg (by rw [hnz]; exact Bool.false_ne_true),
        gf4Ops_generate_zero, hloop]
    · unfold Mdpc.Polynomial.degree
      rw [new_from_coefficients_coe curF hcne]
      have hle := strip_length_le curF hcne
      unfold Mdpc.Polynomial.degree at ho2
      omega
    · rw [toPoly_new_from_coefficients, toPoly_new_from_coefficients]
      rw [toPoly_replicate_zero, zero_mul, add_zero] at heq
      rw [← heq]
      ring

/-- C2 amended.  Euclidean division terminates for every divisor of degree
at least one (each elimination step strictly reduces the length of the
remainder vector); for non-zero divisors of degree 0 the loop never
terminates, as the counterexample shows. -/
theorem c2_amended : ∀ (p other : Mdpc.Polynomial Mdpc.GF4),
    Mdpc.Canonical Mdpc.gf4Ops p.coefficients →
    Mdpc.Canonical Mdpc.gf4Ops other.coefficients →
    1 ≤ Mdpc.Polynomial.degree other →
    ∃ qr : Mdpc.Polynomial Mdpc.GF4 × Mdpc.Polynomial Mdpc.GF4,
      Mdpc.Polynomial.div_mod Mdpc.gf4Ops p other = .ok (some qr) := by
  intro p other hp hoc ho
  obtain ⟨q, r, hdm, _⟩ := div_mod_main p other hp hoc ho
  exact ⟨(q, r), hdm⟩

/-- C2 witness: division of [1,0,1,a,a+1] by the degree-1 divisor [1,a]
terminates. -/
theorem c2_witness :
    ∃ qr : Mdpc.Polynomial Mdpc.GF4 × Mdpc.Polynomial Mdpc.GF4,
      Mdpc.Polynomial.div_mod Mdpc.gf4Ops
        ⟨[.One, .Zero, .One, .Alpha, .AlphaPlusOne]⟩ ⟨[.One, .Alpha]⟩
        = .ok (some qr) :=
  c2_amended ⟨[.One, .Zero, .One, .Alpha, .AlphaPlusOne]⟩ ⟨[.One, .Alpha]⟩
    (by decide) (by decide) (by decide)

/-- C5 amended.  For every canonical dividend and every canonical divisor
of degree at least one, div_mod returns a quotient and remainder with
deg(r) < deg(divisor) and p equal to q.mul(divisor).add(r); for non-zero
divisors of degree 0 the loop never terminates, as the counterexample
shows. -/
theorem c5_amended : ∀ (p other : Mdpc.Polynomial Mdpc.GF4),
    Mdpc.Canonical Mdpc.gf4Ops p.coefficients →
    Mdpc.Canonical Mdpc.gf4Ops other.coefficients →
    1 ≤ Mdpc.Polynomial.degree other →
    ∃ q r : Mdpc.Polynomial Mdpc.GF4,
      Mdpc.Polynomial.div_mod Mdpc.gf4Ops p other = .ok (some (q, r)) ∧
      Mdpc.Polynomial.degree r < Mdpc.Polynomial.degree other ∧
      p = Mdpc.Polynomial.add Mdpc.gf4Ops (Mdpc.Polynomial.mul Mdpc.gf4Ops q other) r := by
  intro p other hp hoc ho
  obtain ⟨q, r, hdm, hqc, hrc, hdeg, hid⟩ := div_mod_main p other hp hoc ho
  refine ⟨q, r, hdm, hdeg, ?_⟩
  apply poly_eq_of_coefficients
  apply toPoly_inj hp (add_canonical _ _)
  rw [toPoly_poly_add _ _ (mul_canonical q other).1 hrc.1, toPoly_poly_mul]
  exact hid

/-- C5 witness: concrete scenario 2, the division of [1,0,1,a,a+1] by
[1,a], instantiating the amended division identity. -/
theorem c5_witness :
    ∃ q r : Mdpc.Polynomial Mdpc.GF4,
      Mdpc.Polynomial.div_mod Mdpc.gf4Ops
        ⟨[.One, .Zero, .One, .Alpha, .AlphaPlusOne]⟩ ⟨[.One, .Alpha]⟩
        = .ok (some (q, r)) ∧
      Mdpc.Polynomial.degree r
        < Mdpc.Polynomial.degree (⟨[.One, .Alpha]⟩ : Mdpc.Polynomial Mdpc.GF4) ∧
      (⟨[.One, .Zero, .One, .Alpha, .AlphaPlusOne]⟩ : Mdpc.Polynomial Mdpc.GF4)
        = Mdpc.Polynomial.add Mdpc.gf4Ops
            (Mdpc.Polynomial.mul Mdpc.gf4Ops q ⟨[.One, .Alpha]⟩) r :=
  c5_amended ⟨[.One, .Zero, .One, .Alpha, .AlphaPlusOne]⟩ ⟨[.One, .Alpha]⟩
    (by decide) (by decide) (by decide)

/- Claim C7: absent-result behavior of xgcd.  The precondition branch is
immediate; for the non-coprime case we prove that the Euclidean loop
terminates at a zero remainder and reports the previous remainder, which
is non-zero and divides both inputs. -/

theorem gf4_is_one_iff : ∀ a : Mdpc.GF4,
    Mdpc.GF4.is_one a = true ↔ a = Mdpc.GF4.One := by decide

theorem is_zero_coe (m : Mdpc.Polynomial Mdpc.GF4)
    (hc : Mdpc.Canonical Mdpc.gf4Ops m.coefficients)
    (h : Mdpc.Polynomial.is_zero Mdpc.gf4Ops m = true) :
    m.coefficients = [Mdpc.GF4.Zero] := by
  unfold Mdpc.Polynomial.is_zero Mdpc.Polynomial.degree at h
  rw [Bool.and_eq_true, beq_iff_eq] at h
  obtain ⟨hlen, hzero⟩ := h
  have hpos := List.length_pos.mpr hc.1
  have hlen1 : m.coefficients.length = 1 := by omega
  obtain ⟨a, ha⟩ := List.length_eq_one.mp hlen1
  rw [ha]
  rw [ha] at hzero
  simp only [List.getD_cons_zero] at hzero
  rw [gf4Ops_is_zero] at hzero
  rw [(gf4_is_zero_iff a).mp hzero]

theorem is_one_coe (m : Mdpc.Polynomial Mdpc.GF4)
    (hc : Mdpc.Canonical Mdpc.gf4Ops m.coefficients)
    (h : Mdpc.Polynomial.is_one Mdpc.gf4Ops m = true) :
    m.coefficients = [Mdpc.GF4.One] := by
  unfold Mdpc.Polynomial.is_one Mdpc.Polynomial.degree at h
  rw [Bool.and_eq_true, beq_iff_eq] at h
  obtain ⟨hlen, hone⟩ := h
  have hpos := List.length_pos.mpr hc.1
  have hlen1 : m.coefficients.length = 1 := by omega
  obtain ⟨a, ha⟩ := List.length_eq_one.mp hlen1
  rw [ha]
  rw [ha] at hone
  simp only [List.getD_cons_zero] at hone
  rw [gf4Ops_is_one] at hone
  rw [(gf4_is_one_iff a).mp hone]

theorem isCoprime_of_unit_right (a b : Polynomial Mdpc.GF4) (hb : IsUnit b) :
    IsCoprime a b := by
  obtain ⟨v, hv⟩ := hb.exists_left_inv
  exact ⟨0, v, by rw [zero_mul, zero_add, hv]⟩

theorem isUnit_C_gf4 (c : Mdpc.GF4) (hc : c ≠ Mdpc.GF4.Zero) :
    IsUnit (Polynomial.C c) :=
  Polynomial.isUnit_C.mpr (isUnit_iff_ne_zero.mpr (by rw [gf4_zero_def]; exact hc))

theorem not_coprime_step (A B Q M : Polynomial Mdpc.GF4)
    (hid : A = Q * B + M) (h : ¬ IsCoprime A B) : ¬ IsCoprime B M := by
  rintro ⟨u, v, huv⟩
  apply h
  refine ⟨v, u + v * Q, ?_⟩
  rw [hid]
  have ht := gf4poly_add_self (v * (Q * B))
  calc v * (Q * B + M) + (u + v * Q) * B
      = (u * B + v * M) + (v * (Q * B) + v * (Q * B)) := by ring
    _ = (u * B + v * M) + 0 := by rw [ht]
    _ = 1 := by rw [add_zero, huv]

theorem coprime_of_remainder_one (A B Q : Polynomial Mdpc.GF4)
    (hid : A = Q * B + 1) : IsCoprime A B := by
  refine ⟨1, Q, ?_⟩
  rw [hid]
  have ht := gf4poly_add_self (Q * B)
  calc 1 * (Q * B + 1) + Q * B = (Q * B + Q * B) + 1 := by ring
    _ = 1 := by rw [ht, zero_add]

theorem xgcdLoop_step_ok (fuel : Nat) (rl rc tl tc q m : Mdpc.Polynomial Mdpc.GF4)
    (hdm : Mdpc.Polynomial.div_mod Mdpc.gf4Ops rl rc = .ok (some (q, m))) :
    Mdpc.xgcdLoop Mdpc.gf4Ops (fuel + 1) rl rc tl tc =
      if Mdpc.Polynomial.is_one Mdpc.gf4Ops m then
        some (some m,
          some (Mdpc.Polynomial.sub Mdpc.gf4Ops tl (Mdpc.Polynomial.mul Mdpc.gf4Ops q tc)))
      else if Mdpc.Polynomial.is_zero Mdpc.gf4Ops m then
        some (some rc, none)
      else
        Mdpc.xgcdLoop Mdpc.gf4Ops fuel rc m tc
          (Mdpc.Polynomial.sub Mdpc.gf4Ops tl (Mdpc.Polynomial.mul Mdpc.gf4Ops q tc)) := by
  rw [xgcdLoop_succ, hdm]

theorem xgcdLoop_main : ∀ (fuel : Nat) (rl rc tl tc : Mdpc.Polynomial Mdpc.GF4),
    Mdpc.Canonical Mdpc.gf4Ops rl.coefficients →
    Mdpc.Canonical Mdpc.gf4Ops rc.coefficients →
    Mdpc.Polynomial.is_zero Mdpc.gf4Ops rc = false →
    ¬ IsCoprime (toPoly rl.coefficients) (toPoly rc.coefficients) →
    Mdpc.Polynomial.degree rc < fuel →
    ∃ g : Mdpc.Polynomial Mdpc.GF4,
      Mdpc.xgcdLoop Mdpc.gf4Ops fuel rl rc tl tc = some (some g, none) ∧
      Mdpc.Polynomial.is_zero Mdpc.gf4Ops g = false ∧
      toPoly g.coefficients ∣ toPoly rl.coefficients ∧
      toPoly g.coefficients ∣ toPoly rc.coefficients
  | 0, rl, rc, tl, tc, hrlc, hrcc, hrcz, hcop, hfuel => by omega
  | fuel + 1, rl, rc, tl, tc, hrlc, hrcc, hrcz, hcop, hfuel => by
      have hdeg1 : 1 ≤ Mdpc.Polynomial.degree rc := by
        by_contra hlt
        push_neg at hlt
        have hlen1 : rc.coefficients.length = 1 := by
          have := List.length_pos.mpr hrcc.1
          unfold Mdpc.Polynomial.degree at hlt
          omega
        obtain ⟨c, hc⟩ := List.length_eq_one.mp hlen1
        have hcz : c ≠ Mdpc.GF4.Zero := by
          intro hczero
          rw [hczero] at hc
          have hz : Mdpc.Polynomial.is_zero Mdpc.gf4Ops rc = true := by
            unfold Mdpc.Polynomial.is_zero Mdpc.Polynomial.degree
            rw [hc]
            rfl
          rw [hz] at hrcz
          exact Bool.noConfusion hrcz
        apply hcop
        apply isCoprime_of_unit_right
        rw [hc]
        have hCc : toPoly [c] = Polynomial.C c := by
          rw [toPoly_cons, toPoly_nil, mul_zero, add_zero]
        rw [hCc]
        exact isUnit_C_gf4 c hcz
      obtain ⟨q, m, hdm, hqc, hmc, hmdeg, hid⟩ := div_mod_main rl rc hrlc hrcc hdeg1
      rw [xgcdLoop_step_ok fuel rl rc tl tc q m hdm]
      by_cases h1 : Mdpc.Polynomial.is_one Mdpc.gf4Ops m = true
      · exfalso
        apply hcop
        have hm1 : m.coefficients = [Mdpc.GF4.One] := is_one_coe m hmc h1
        apply coprime_of_remainder_one _ _ (toPoly q.coefficients)
        rw [hid, hm1, toPoly_one_singleton]
      · rw [if_neg h1]
        by_cases h0 : Mdpc.Polynomial.is_zero Mdpc.gf4Ops m = true
        · rw [if_pos h0]
          refine ⟨rc, rfl, hrcz, ?_, dvd_refl _⟩
          have hm0 : m.coefficients = [Mdpc.GF4.Zero] := is_zero_coe m hmc h0
          rw [hm0, toPoly_zero_singleton, add_zero] at hid
          exact ⟨toPoly q.coefficients, by rw [hid, mul_comm]⟩
        · rw [if_neg h0]
          have hcop' : ¬ IsCoprime (toPoly rc.coefficients) (toPoly m.coefficients) :=
            not_coprime_step _ _ (toPoly q.coefficients) _ hid hcop
          have hm0 : Mdpc.Polynomial.is_zero Mdpc.gf4Ops m = false := by
            cases hmz : Mdpc.Polynomial.is_zero Mdpc.gf4Ops m with
            | false => rfl
            | true => exact absurd hmz h0
          obtain ⟨g, hg, hgz, hgrc, hgm⟩ :=
            xgcdLoop_main fuel rc m tc
              (Mdpc.Polynomial.sub Mdpc.gf4Ops tl (Mdpc.Polynomial.mul Mdpc.gf4Ops q tc))
              hrcc hmc hm0 hcop' (by omega)
          refine ⟨g, hg, hgz, ?_, hgrc⟩
          rw [hid]
          exact dvd_add (Dvd.dvd.mul_left hgrc _) hgm

/-- C7.  First half: a precondition violation (deg(modulus) <= deg(poly)
or a zero poly) yields an absent result for both outputs.  Second half:
when the preconditions hold but poly and modulus are not coprime, xgcd
terminates with a present gcd (a non-zero common divisor of both inputs)
and an absent inverse. -/
theorem c7_xgcd_absent :
    (∀ p m : Mdpc.Polynomial Mdpc.GF4,
      (Mdpc.Polynomial.degree m ≤ Mdpc.Polynomial.degree p ∨
        Mdpc.Polynomial.is_zero Mdpc.gf4Ops p = true) →
      Mdpc.xgcd Mdpc.gf4Ops p m = some (none, none)) ∧
    (∀ p m : Mdpc.Polynomial Mdpc.GF4,
      Mdpc.Canonical Mdpc.gf4Ops p.coefficients →
      Mdpc.Canonical Mdpc.gf4Ops m.coefficients →
      Mdpc.Polynomial.degree p < Mdpc.Polynomial.degree m →
      Mdpc.Polynomial.is_zero Mdpc.gf4Ops p = false →
      ¬ IsCoprime (toPoly p.coefficients) (toPoly m.coefficients) →
      ∃ g : Mdpc.Polynomial Mdpc.GF4,
        Mdpc.xgcd Mdpc.gf4Ops p m = some (some g, none) ∧
        Mdpc.Polynomial.is_zero Mdpc.gf4Ops g = false ∧
        toPoly g.coefficients ∣ toPoly p.coefficients ∧
        toPoly g.coefficients ∣ toPoly m.coefficients) := by
  constructor
  · intro p m h
    unfold Mdpc.xgcd
    rw [if_pos h]
  · intro p m hpc hmc hdeg hpz hcop
    unfold Mdpc.xgcd
    rw [if_neg (not_or.mpr ⟨by omega, by simp [hpz]⟩)]
    obtain ⟨g, hg, hgz, hgm, hgp⟩ :=
      xgcdLoop_main (p.coefficients.length + 1) m p (Mdpc.Polynomial.new Mdpc.gf4Ops)
        (Mdpc.Polynomial.new_from_coefficients Mdpc.gf4Ops [Mdpc.gf4Ops.generate_zero])
        hmc hpc hpz (fun hc => hcop hc.symm)
        (by
          have := List.length_pos.mpr hpc.1
          unfold Mdpc.Polynomial.degree
          omega)
    exact ⟨g, hg, hgz, hgp, hgm⟩

theorem not_coprime_concrete :
    ¬ IsCoprime (toPoly [Mdpc.GF4.One, Mdpc.GF4.Alpha])
        (toPoly [Mdpc.GF4.Zero, Mdpc.GF4.One, Mdpc.GF4.One, Mdpc.GF4.One]) := by
  intro hcop
  have hfact : Mdpc.Polynomial.mul Mdpc.gf4Ops ⟨[Mdpc.GF4.One, Mdpc.GF4.Alpha]⟩
      ⟨[Mdpc.GF4.Zero, Mdpc.GF4.One, Mdpc.GF4.AlphaPlusOne]⟩
      = ⟨[Mdpc.GF4.Zero, Mdpc.GF4.One, Mdpc.GF4.One, Mdpc.GF4.One]⟩ := by decide
  have hdvd2 : toPoly [Mdpc.GF4.One, Mdpc.GF4.Alpha]
      ∣ toPoly [Mdpc.GF4.Zero, Mdpc.GF4.One, Mdpc.GF4.One, Mdpc.GF4.One] := by
    refine ⟨toPoly [Mdpc.GF4.Zero, Mdpc.GF4.One, Mdpc.GF4.AlphaPlusOne], ?_⟩
    have hm := toPoly_poly_mul ⟨[Mdpc.GF4.One, Mdpc.GF4.Alpha]⟩
      ⟨[Mdpc.GF4.Zero, Mdpc.GF4.One, Mdpc.GF4.AlphaPlusOne]⟩
    rw [hfact] at hm
    exact hm
  have hunit := hcop.isUnit_of_dvd' (dvd_refl _) hdvd2
  rw [Polynomial.isUnit_iff] at hunit
  obtain ⟨r, _, hCr⟩ := hunit
  have hco := congrArg (fun pp => Polynomial.coeff pp 1) hCr
  simp only [Polynomial.coeff_C] at hco
  rw [if_neg one_ne_zero, coeff_toPoly] at hco
  simp only [List.getD_cons_succ, List.getD_cons_zero] at hco
  exact absurd hco (by decide)

/-- C7 witness: the precondition branch at poly [1,a] and modulus [1], and
the non-coprime branch at poly [1,a] and modulus [0,1,1,1]. -/
theorem c7_witness :
    Mdpc.xgcd Mdpc.gf4Ops ⟨[.One, .Alpha]⟩ ⟨[Mdpc.GF4.One]⟩ = some (none, none) ∧
    ∃ g : Mdpc.Polynomial Mdpc.GF4,
      Mdpc.xgcd Mdpc.gf4Ops ⟨[.One, .Alpha]⟩ ⟨[.Zero, .One, .One, .One]⟩
        = some (some g, none) ∧
      Mdpc.Polynomial.is_zero Mdpc.gf4Ops g = false ∧
      toPoly g.coefficients ∣ toPoly [Mdpc.GF4.One, Mdpc.GF4.Alpha] ∧
      toPoly g.coefficients
        ∣ toPoly [Mdpc.GF4.Zero, Mdpc.GF4.One, Mdpc.GF4.One, Mdpc.GF4.One] :=
  ⟨c7_xgcd_absent.1 ⟨[.One, .Alpha]⟩ ⟨[Mdpc.GF4.One]⟩ (Or.inl (by decide)),
   c7_xgcd_absent.2 ⟨[.One, .Alpha]⟩ ⟨[.Zero, .One, .One, .One]⟩ (by decide) (by decide)
     (by decide) (by decide) not_coprime_concrete⟩
